import Mathlib

/-
  Verification of the MG-GA anonymization engine.

  This development is a shallow embedding, in Lean 4, of the core of the
  MG-GA program (src/shared.h, src/domains.h, src/table.h, src/metrics.h,
  src/mg.h, src/ga.h), together with proofs and refutations of the frozen
  specification claims about it.

  Modelling conventions:
  * C++ `float` scores are modelled with exact rationals.
  * `size_t` values are modelled with natural numbers; `SIZE_MAX` and the one
    place where unsigned wrap-around is reachable (the running product in
    Table::get_distinct) are modelled explicitly with `% 2 ^ 64`.
  * Code that throws std::runtime_error is modelled with `Except String`.
  * A loop `for (x = start; x <= max; ++x) ... row[x] ...` over a container
    is modelled by consuming the corresponding list of entries head first.
  * The `Table` stores its columns positionally.  In the source the columns
    live in a `std::map` keyed by the header names and every access goes
    through `data.at(header[i])`, so the pair (header, map) acts as one
    positional sequence of columns.
  * The process-global RNG influences none of the claims; where the source
    shuffles a list of candidates, the shuffle is a parameter of the
    embedding, universally quantified in the theorems that mention it.
-/

namespace MG

/-- Empty string, used as the out-of-range default for cell lookups. -/
def blank : String := ""

/-- Model of std::stoi / std::atoi on the numeric cell strings the program
    feeds them: parse the leading run of digits (0 on no digits). -/
def stoi (s : String) : ℕ := (s.takeWhile Char.isDigit).toNat?.getD 0

/-- Integer range, from shared.h (class Range).  `out` is the cached
    canonical string, exactly as in the source, which stores it alongside
    the bounds and uses it for ordering and equality. -/
structure Range where
  rmin : ℕ
  rmax : ℕ
  out : String
deriving Repr, DecidableEq

/-- Canonical string of a range, from Range::update_string. -/
def Range.fmt (m M : ℕ) : String := "[" ++ toString m ++ "-" ++ toString M ++ "]"

/-- Constructor Range(m, M): normalizes the order, then materializes the
    string form. -/
def Range.ofPair (m M : ℕ) : Range :=
  if m < M then ⟨m, M, Range.fmt m M⟩ else ⟨M, m, Range.fmt M m⟩

/-- Constructor Range(std::string): strips the brackets, splits on the dash,
    keeps the bounds unnormalized and keeps the input as the string form.
    The source asserts well-formedness; the fallback bounds 0,0 stand for
    the asserted-unreachable case. -/
def Range.ofString (s : String) : Range :=
  let trimmed := (s.drop 1).dropRight 1
  match trimmed.splitOn "-" with
  | [a, b] => ⟨stoi a, stoi b, s⟩
  | _ => ⟨0, 0, s⟩

/-- Range::str(). -/
def Range.str (r : Range) : String := r.out

/-- Range::in(size_t): containment of a point. -/
def Range.inN (r : Range) (val : ℕ) : Bool := r.rmin ≤ val && val ≤ r.rmax

/-- Range::in(Range): containment of another range. -/
def Range.inR (r : Range) (v : Range) : Bool := r.rmin ≤ v.rmin && v.rmax ≤ r.rmax

/-- Range::range(): the width max - min. -/
def Range.width (r : Range) : ℕ := r.rmax - r.rmin

/-- Domain graph from domains.h: a rose tree of node names.  The default
    Domain() has an empty value, which is what Domain::empty() tests. -/
inductive Domain where
  | node (value : String) (children : List Domain)
deriving Repr

/-- Name of the root node. -/
def Domain.value : Domain → String
  | .node v _ => v

/-- Children of the root node. -/
def Domain.children : Domain → List Domain
  | .node _ c => c

/-- Domain::empty(). -/
def Domain.isEmptyD (d : Domain) : Bool := d.value = blank

/-- Recursive part of Domain::find(child, stack): scan the children in
    order; a hit pushes the names from the found node up to the scanned
    child, deepest first.  Failed branches leave the stack untouched, so an
    Option models the (bool, out-stack) pair. -/
def Domain.findGo (child : String) : List Domain → Option (List String)
  | [] => none
  | .node v ch :: rest =>
    if v = child then some [v]
    else
      match Domain.findGo child ch with
      | some stack => some (stack ++ [v])
      | none => Domain.findGo child rest
termination_by l => sizeOf l
decreasing_by
  all_goals simp_wf
  all_goals omega

/-- Domain::find(child): the path from the node up to, but excluding, the
    root; empty when the name is absent. -/
def Domain.find (d : Domain) (child : String) : List String :=
  (Domain.findGo child d.children).getD []

/-- Recursive part of Domain::breadth: scanning a sibling list whose parent
    has `siz` children; a direct hit returns `siz`, otherwise the subtrees
    are searched (0 means not found). -/
def Domain.breadthGo (name : String) : List Domain → ℕ → ℕ
  | [], _ => 0
  | .node v ch :: rest, siz =>
    if v = name then siz
    else
      let inner := Domain.breadthGo name ch ch.length
      if inner ≠ 0 then inner else Domain.breadthGo name rest siz
termination_by l _ => sizeOf l
decreasing_by
  all_goals simp_wf
  all_goals omega

/-- Domain::breadth(name). -/
def Domain.breadth (d : Domain) (name : String) : ℕ :=
  Domain.breadthGo name d.children d.children.length

/-- Column type from table.h (enum type). -/
inductive CType where
  | string
  | integer
deriving Repr, DecidableEq

/-- Column sensitivity from table.h (enum classification). -/
inductive Classification where
  | ignore
  | quasi
  | sensitive
deriving Repr, DecidableEq

/-- Column record from table.h (struct column).  `width` is display-only
    state and never read by the engine, so it is not modelled. -/
structure Column where
  t : CType := .string
  weight : ℚ := 1
  sensitivity : Classification := .quasi
  unique : List String := []
  ranges : List Range := []
  range : Range := Range.ofPair 0 0
  graph : Domain := .node blank []
  data : List String := []
deriving Repr

instance : Inhabited Column := ⟨{}⟩

/-- Table from table.h.  The columns are kept positionally (see the header
    comment); `rows` is the row counter maintained by the loader. -/
structure Table where
  cols : List Column
  rows : ℕ
deriving Repr

/-- Table::columns() (the header size). -/
def Table.columns (t : Table) : ℕ := t.cols.length

/-- Table::get_column(c) / the map lookup data.at(header[c]). -/
def Table.getCol (t : Table) (c : ℕ) : Column := t.cols.getD c default

/-- Table::index(r, c): one cell. -/
def Table.cell (t : Table) (r c : ℕ) : String := (t.getCol c).data.getD r blank

/-- View of row r, as built by Table::RowIterator::construct_view(). -/
def Table.rowView (t : Table) (r : ℕ) : List String :=
  t.cols.map (fun col => col.data.getD r blank)

/-- Overwrite of one cell through the working table (cell = mut in mg.h). -/
def Table.setCell (t : Table) (r c : ℕ) (v : String) : Table :=
  { t with cols := t.cols.set c { t.getCol c with data := (t.getCol c).data.set r v } }

/-- Table::mutations(value, col, randomize = false): the deterministic
    candidate list.  Order: the suppression symbol, then the domain chain
    (or the value itself when no domain is attached and the value is
    non-empty), then every containing range for integer columns.  The
    randomize=true variant only shuffles this list; the shuffle is applied
    by the callers of this embedding as an explicit parameter. -/
def mutations (value : String) (col : Column) : List String :=
  let ret : List String := ["*"]
  let ret :=
    if ¬col.graph.isEmptyD then ret ++ col.graph.find value
    else if ¬(value = blank) then ret ++ [value]
    else ret
  if col.t = .integer then
    if value.front = '[' then
      ret ++ (col.ranges.filter (fun range => range.inR (Range.ofString value))).map Range.str
    else
      ret ++ (col.ranges.filter (fun range => range.inN (stoi value))).map Range.str
  else ret

/-- SIZE_MAX for the 64-bit size_t. -/
def SIZE_MAX : ℕ := 2 ^ 64 - 1

/-- Table::get_distinct(): running product of the mutation-count of every
    cell of every column (the source iterates the whole column map, not
    only the quasi columns), computed in size_t arithmetic, then replaced
    by SIZE_MAX whenever header.size() * data.at(header[0]).data.size()
    exceeds 64. -/
def Table.get_distinct (t : Table) : ℕ :=
  let total := t.cols.foldl
    (fun acc col => col.data.foldl (fun a e => a * (mutations e col).length % 2 ^ 64) acc) 1
  if 64 < t.cols.length * (t.cols.headD default).data.length then SIZE_MAX else total

/-- Per-field consistency test inside metric::match_row: field x of a
    working-row view against the same field of original row `compareCell`.
    The order of the tests follows the source exactly: literal equality or
    suppression first, then the non-quasi skip, then the domain chain in
    both directions, then point-in-range for bracketed integer cells. -/
def cellOk (o : Table) (x : ℕ) (rc cc : String) : Bool :=
  if rc = cc ∨ rc = "*" then true
  else
    let column := o.getCol x
    if column.sensitivity ≠ .quasi then true
    else if ¬column.graph.isEmptyD then
      decide (cc ∈ column.graph.find rc) || decide (rc ∈ column.graph.find cc)
    else if column.t = .integer ∧ rc.front = '[' then
      (Range.ofString rc).inN (stoi cc)
    else false

/-- metric::match_row(o, row, c) with the cache disabled: indexes of the
    rows of `o` consistent with `row` on fields 0..c inclusive, in row
    order.  (The cached variant is defined further below; the source is a
    single function whose cache branches are guarded by shared::cache.) -/
def match_row (o : Table) (row : List String) (c : ℕ) : List ℕ :=
  (List.range o.rows).filter (fun i =>
    (List.range (c + 1)).all (fun x => cellOk o x (row.getD x blank) ((o.getCol x).data.getD i blank)))

/-- Terminal update of metric::k_tree: walk the completed branch and insert
    its choices into the per-row candidate sets, positionally. -/
def updateKs : List (Finset ℕ) → List ℕ → List (Finset ℕ)
  | ks, [] => ks
  | [], _ :: _ => []
  | s :: ks, v :: tree => insert v s :: updateKs ks tree

/-- Recursion of metric::k_tree, made structural on an exact recursion-depth
    counter (always instantiated with the length of the remaining match
    list, so the middle equation is unreachable). -/
def k_treeF : ℕ → List (List ℕ) → List ℕ → List (Finset ℕ) → List (Finset ℕ)
  | _, [], tree, ks => updateKs ks tree
  | 0, _ :: _, _, ks => ks
  | fuel + 1, m :: ms, tree, ks =>
    m.foldl (fun acc option =>
      if option ∈ tree then acc else k_treeF fuel ms (tree ++ [option]) acc) ks

/-- metric::k_tree(matches, tree, ks, x): backtracking enumeration of every
    injective assignment of original rows to working rows, option x drawn
    from matches[x]; each completed branch is folded into ks.  The source
    counter x over `matches` is modelled by consuming the remaining match
    lists head first. -/
def k_tree (rest : List (List ℕ)) (tree : List ℕ) (ks : List (Finset ℕ)) : List (Finset ℕ) :=
  k_treeF rest.length rest tree ks

/-- Row loop of metric::k_anonymity: collect the matches of each remaining
    row, bailing out (a trim) as soon as one row has fewer than k matches;
    when every row survives, run k_tree and require every candidate set to
    have at least k entries. -/
def k_anonymity_go (o : Table) (w : Table) (k c : ℕ) : List ℕ → List (List ℕ) → Bool
  | [], acc =>
    let tree := k_tree acc [] (List.replicate acc.length ∅)
    tree.all (fun solutions => k ≤ solutions.card)
  | r :: rs, acc =>
    let m := match_row o (w.rowView r) c
    if m.length < k then false else k_anonymity_go o w k c rs (acc ++ [m])

/-- metric::k_anonymity(w, o, k, c) with the cache disabled.  The c = -1
    default of the source (c == SIZE_MAX resolving to columns()-1) is
    applied by the call sites below, as in the source. -/
def k_anonymity (w o : Table) (k c : ℕ) : Bool :=
  k_anonymity_go o w k c (List.range w.rows) []

/-- metric::av_k_anonymity(w, o, c): same construction without the bail-out,
    returning the mean candidate-set size over the rows. -/
def av_k_anonymity (w o : Table) (c : ℕ) : ℚ :=
  let ms := (List.range w.rows).map (fun r => match_row o (w.rowView r) c)
  let tree := k_tree ms [] (List.replicate ms.length ∅)
  (tree.map (fun solutions => (solutions.card : ℚ))).sum / (tree.length : ℚ)

/-- Row score of metric::minimal_distortion: the summed weight of the
    changed cells of row r. -/
def md_row (w o : Table) (r : ℕ) : ℚ :=
  ((List.range w.columns).map (fun col =>
    if o.cell r col ≠ w.cell r col then (w.getCol col).weight else 0)).sum

/-- metric::minimal_distortion(w, o, best) with the cache disabled.  The
    `best` argument of the source is never read, so it is dropped here. -/
def minimal_distortion (w o : Table) : ℚ :=
  ((List.range w.rows).map (md_row w o)).sum

/-- Sum of a list of fallible scores, propagating the first error, as the
    accumulating loops over throwing cell scores do in metrics.h. -/
def sumE : List (Except String ℚ) → Except String ℚ
  | [] => .ok 0
  | e :: rest => do
    let v ← e
    let s ← sumE rest
    .ok (v + s)

/-- Cell score of metric::certainty_score: 0 when unchanged, 1 for full
    suppression, breadth/|unique| for a domain generalization, relative
    width for a range, an InvalidMutation error otherwise; the result is
    scaled by the weight of the original table's column. -/
def certCell (w o : Table) (r c : ℕ) : Except String ℚ := do
  let original := o.cell r c
  let mod := w.cell r c
  let column := w.getCol c
  let base ←
    if original = mod then pure (0 : ℚ)
    else if mod = "*" then pure (1 : ℚ)
    else if ¬column.graph.isEmptyD ∧ column.graph.find mod ≠ [] then
      pure ((column.graph.breadth mod : ℚ) / (column.unique.length : ℚ))
    else if column.t = .integer ∧ mod.front = '[' then
      pure (((Range.ofString mod).width : ℚ) / (column.range.width : ℚ))
    else Except.error "Invalid modification!"
  pure (base * (o.getCol c).weight)

/-- Row score of metric::certainty_score. -/
def certRow (w o : Table) (r : ℕ) : Except String ℚ :=
  sumE ((List.range w.columns).map (certCell w o r))

/-- metric::certainty_score(w, o, best) with the cache disabled; the `best`
    argument is never read by the source and is dropped. -/
def certainty_score (w o : Table) : Except String ℚ :=
  sumE ((List.range w.rows).map (certRow w o))

/-- Node of the caching prefix tree from shared.h (Tree<T>::Node): a key, a
    stored value (the value-initialized default standing for "no value"),
    and an ordered child list. -/
inductive CNode (V : Type) where
  | mk (key : String) (value : V) (children : List (CNode V))

/-- Key of a node. -/
def CNode.key {V : Type} : CNode V → String
  | .mk k _ _ => k

/-- Stored value of a node. -/
def CNode.val {V : Type} : CNode V → V
  | .mk _ v _ => v

/-- Children of a node. -/
def CNode.kids {V : Type} : CNode V → List (CNode V)
  | .mk _ _ c => c

/-- Child-scan predicate of the Node operations: the std::find over the
    children compares keys, so the scan drops children whose key differs
    from the cell. -/
def keyNe {V : Type} (cell : String) (c : CNode V) : Bool := ¬(c.key = cell)

/-- Tree<T>::Node::add(row, v, max, x), modelled on the explicit key path
    (the entries row[x] .. row[max]).  At the end of the path the value is
    written, unless a non-default value is already present, which is the
    collision error.  One step down either enters the first child carrying
    the key (std::find) or appends a fresh child; the child scan is
    expressed with takeWhile/dropWhile. -/
def CNode.addP {V : Type} [DecidableEq V] (dflt : V) (n : CNode V) (path : List String) (v : V) :
    Except String (CNode V) :=
  match n, path with
  | .mk k val ch, [] =>
    if val ≠ dflt then .error "Tree collision!" else .ok (.mk k v ch)
  | .mk k val ch, cell :: rest =>
    match ch.dropWhile (keyNe cell) with
    | [] =>
      (CNode.addP dflt (.mk cell dflt []) rest v).map (fun c => .mk k val (ch ++ [c]))
    | c :: cs =>
      (CNode.addP dflt c rest v).map
        (fun c2 => .mk k val (ch.takeWhile (keyNe cell) ++ c2 :: cs))

/-- Tree<T>::Node::in(row, max, x) on the explicit key path: true exactly
    when the path exists and ends at a non-default value. -/
def CNode.inP {V : Type} [DecidableEq V] (dflt : V) (n : CNode V) (path : List String) : Bool :=
  match n, path with
  | .mk _ val _, [] => decide (val ≠ dflt)
  | .mk _ _ ch, cell :: rest =>
    match ch.dropWhile (keyNe cell) with
    | [] => false
    | c :: _ => CNode.inP dflt c rest

/-- Tree<T>::Node::get(row, max, x) on the explicit key path; a missing
    path throws. -/
def CNode.getP {V : Type} (n : CNode V) (path : List String) : Except String V :=
  match n, path with
  | .mk _ val _, [] => .ok val
  | .mk _ _ ch, cell :: rest =>
    match ch.dropWhile (keyNe cell) with
    | [] => .error "Value does not exist"
    | c :: _ => CNode.getP c rest

/-- Key path walked by the Tree<T> calls: the cells row[0] .. row[max]. -/
def pathK (row : List String) (max : ℕ) : List String :=
  (List.range (max + 1)).map (fun x => row.getD x blank)

/-- Resolution of the max = SIZE_MAX default argument of Tree<T>:
    row.size() - 1. -/
def resolveMax (row : List String) (max : ℕ) : ℕ :=
  if max = SIZE_MAX then row.length - 1 else max

/-- Caching prefix tree from shared.h (Tree<T>), with the telemetry
    counters. -/
structure Tree (V : Type) where
  root : CNode V
  hits : ℕ := 0
  misses : ℕ := 0

/-- Freshly constructed (default) cache tree. -/
def Tree.empty {V : Type} (dflt : V) : Tree V := { root := .mk blank dflt [] }

/-- Tree<T>::add(row, v, max). -/
def Tree.addT {V : Type} [DecidableEq V] (dflt : V) (t : Tree V) (row : List String) (v : V)
    (max : ℕ) : Except String (Tree V) :=
  (CNode.addP dflt t.root (pathK row (resolveMax row max)) v).map (fun r => { t with root := r })

/-- Tree<T>::in(row, max), with its hit/miss counter side effect. -/
def Tree.inq {V : Type} [DecidableEq V] (dflt : V) (t : Tree V) (row : List String) (max : ℕ) :
    Bool × Tree V :=
  let i := CNode.inP dflt t.root (pathK row (resolveMax row max))
  (i, if i then { t with hits := t.hits + 1 } else { t with misses := t.misses + 1 })

/-- Result of Tree<T>::in alone. -/
def Tree.inB {V : Type} [DecidableEq V] (dflt : V) (t : Tree V) (row : List String) (max : ℕ) :
    Bool :=
  (Tree.inq dflt t row max).fst

/-- Tree<T>::get(row, max). -/
def Tree.getT {V : Type} (t : Tree V) (row : List String) (max : ℕ) : Except String V :=
  CNode.getP t.root (pathK row (resolveMax row max))

/-- Row loop of metric::minimal_distortion with shared::cache enabled,
    threading the score cache: a cached row is summed from the tree, an
    uncached one is scored and inserted. -/
def md_cached_go (w o : Table) : List ℕ → ℚ → Tree ℚ → Except String (ℚ × Tree ℚ)
  | [], score, t => .ok (score, t)
  | r :: rs, score, t =>
    let row := w.rowView r
    let (hit, t) := Tree.inq 0 t row SIZE_MAX
    if hit then do
      let v ← Tree.getT t row SIZE_MAX
      md_cached_go w o rs (score + v) t
    else do
      let rowScore := md_row w o r
      let t2 ← Tree.addT 0 t row rowScore SIZE_MAX
      md_cached_go w o rs (score + rowScore) t2

/-- metric::minimal_distortion with shared::cache enabled (the source is a
    single function whose cache branches are guarded by the flag). -/
def minimal_distortion_cached (w o : Table) (t : Tree ℚ) : Except String (ℚ × Tree ℚ) :=
  md_cached_go w o (List.range w.rows) 0 t

/-- metric::match_row with shared::cache enabled, threading the match
    cache, which is additionally keyed by the prefix length c. -/
def match_row_cached (o : Table) (row : List String) (c : ℕ) (t : Tree (List ℕ)) :
    Except String (List ℕ × Tree (List ℕ)) :=
  let (hit, t) := Tree.inq [] t row c
  if hit then do
    let v ← Tree.getT t row c
    .ok (v, t)
  else do
    let m := match_row o row c
    let t2 ← Tree.addT [] t row m c
    .ok (m, t2)

/-- Row loop of metric::k_anonymity with shared::cache enabled. -/
def k_anonymity_cached_go (o w : Table) (k c : ℕ) :
    List ℕ → List (List ℕ) → Tree (List ℕ) → Except String (Bool × Tree (List ℕ))
  | [], acc, t =>
    let tr := k_tree acc [] (List.replicate acc.length ∅)
    .ok (tr.all (fun solutions => k ≤ solutions.card), t)
  | r :: rs, acc, t => do
    let (m, t2) ← match_row_cached o (w.rowView r) c t
    if m.length < k then .ok (false, t2)
    else k_anonymity_cached_go o w k c rs (acc ++ [m]) t2

/-- metric::k_anonymity with shared::cache enabled. -/
def k_anonymity_cached (w o : Table) (k c : ℕ) (t : Tree (List ℕ)) :
    Except String (Bool × Tree (List ℕ)) :=
  k_anonymity_cached_go o w k c (List.range w.rows) [] t

/-- Scoring metric selector from metrics.h (enum metric). -/
inductive Metric where
  | md
  | c
deriving Repr, DecidableEq

/-- Comparison s <= best against a float best that starts at INFINITY
    (modelled as none). -/
def leBest (s : ℚ) (best : Option ℚ) : Bool :=
  match best with
  | none => true
  | some b => decide (s ≤ b)

/-- Prefix pruning test on the last row of a column, from
    MinGen::anonymize_worker (mg.h line 179).  The conditional operator
    binds looser than <=, so the source parses as

      (m == c ? certainty_score(w, o, best)
              : (minimal_distortion(w, o, best) <= best))
        && k_anonymity(w, o, k, col)

    and the first operand of && is a float, contextually converted to bool:
    for the certainty metric the score test is score != 0, while for
    minimal distortion it is score <= best. -/
def mg_condition (m : Metric) (w o : Table) (best : Option ℚ) (k col : ℕ) :
    Except String Bool := do
  let sOK ←
    match m with
    | .c => do
      let s ← certainty_score w o
      pure (decide (s ≠ 0))
    | .md => pure (leBest (minimal_distortion w o) best)
  pure (sOK && k_anonymity w o k col)

/-- Scoring function of the configured metric (the s_score selection of
    ga.h, also used by the spec-side pruning test below). -/
def s_score (m : Metric) (f o : Table) : Except String ℚ :=
  match m with
  | .md => .ok (minimal_distortion f o)
  | .c => certainty_score f o

/-- Score test the specification asks for on the last row of a column:
    the score of the configured metric compared against the current best,
    for both metrics alike. -/
def mg_condition_spec (m : Metric) (w o : Table) (best : Option ℚ) (k col : ℕ) :
    Except String Bool := do
  let s ← s_score m w o
  pure (leBest s best && k_anonymity w o k col)

/-- Search state of the MinGen worker: the working table, the best score
    (none = INFINITY), the tied-best tables and the state counter. -/
structure MGState where
  working : Table
  best : Option ℚ
  tables : List Table
  states : ℕ

/-- MinGen::score_results(): bump the counter, score the working table
    under the configured metric, reset the tied set on a strict
    improvement, and record the table whenever it ties the best. -/
def score_results (o : Table) (m : Metric) (st : MGState) : Except String MGState := do
  let st := { st with states := (st.states + 1) % 2 ^ 64 }
  let score ←
    match m with
    | .md => pure (minimal_distortion st.working o)
    | .c => certainty_score st.working o
  let improved :=
    match st.best with
    | none => true
    | some b => decide (score < b)
  let st := if improved then { st with best := some score, tables := [] } else st
  pure (if st.best = some score then { st with tables := st.working :: st.tables } else st)

/-- MinGen::anonymize_worker(row, col), made structural on an explicit
    recursion-depth counter (the C++ recursion depth is bounded by the
    table dimensions; the counter only needs to exceed it).  The candidate
    loop is a fold carrying a halted flag for the early returns of the
    source; `sh` stands for the shuffle applied by mutations when the
    search is not exhaustive (max != -1). -/
def anonymize_worker (o : Table) (k : ℕ) (m : Metric) (maxI : ℕ)
    (sh : List String → List String) :
    ℕ → ℕ → ℕ → MGState → Except String MGState
  | 0, _, _, _ => .error "out of fuel"
  | fuel + 1, row, col, st =>
    if st.states = maxI then .ok st
    else if col = st.working.columns then score_results o m st
    else
      let column := st.working.getCol col
      if column.sensitivity ≠ .quasi then anonymize_worker o k m maxI sh fuel row (col + 1) st
      else
        let cell := column.data.getD row blank
        let muts0 := mutations cell column
        let muts := if maxI ≠ SIZE_MAX then sh muts0 else muts0
        let len := column.data.length
        (muts.foldl (fun (acc : Except String (MGState × Bool)) mu => do
            let (st, halted) ← acc
            if halted then pure (st, true)
            else
              let st := { st with states := (st.states + 1) % 2 ^ 64 }
              if maxI ≤ st.states then pure (st, true)
              else
                let st := { st with working := st.working.setCell row col mu }
                let st2 ←
                  if row = len - 1 then do
                    let cond ← mg_condition m st.working o st.best k col
                    if cond then
                      if col = st.working.columns - 1 then score_results o m st
                      else anonymize_worker o k m maxI sh fuel 0 (col + 1) st
                    else pure st
                  else anonymize_worker o k m maxI sh fuel (row + 1) col st
                pure ({ st2 with working := st2.working.setCell row col cell }, false))
          (pure (st, false))).map Prod.fst

/-- Outcome of MinGen::anonymize relevant to the claims: whether the
    already-anonymous notice fired, whether the recursive search ran, and
    the states/tied-best set left behind. -/
structure MGResult where
  alreadyAnonymous : Bool
  searchEntered : Bool
  finalStates : ℕ
  finalTables : List Table

/-- MinGen::anonymize(k, m, iters): after storing the parameters and
    copying the original into the working table (the state below, with
    states and the tied set as MinGen::reset leaves them), the verifier is
    run on the untouched table over the full column range; on success the
    notice prints and the function returns at once, otherwise the worker
    recursion runs from (0, 0). -/
def MinGen.anonymize (o : Table) (kVal : ℕ) (mVal : Metric) (iters : ℕ)
    (sh : List String → List String) (fuel : ℕ) : MGResult :=
  let st0 : MGState := { working := o, best := none, tables := [], states := 0 }
  if k_anonymity o o kVal (o.columns - 1) then
    { alreadyAnonymous := true, searchEntered := false,
      finalStates := st0.states, finalTables := st0.tables }
  else
    match anonymize_worker o kVal mVal iters sh fuel 0 0 st0 with
    | .ok st =>
      { alreadyAnonymous := false, searchEntered := true,
        finalStates := st.states, finalTables := st.tables }
    | .error _ =>
      { alreadyAnonymous := false, searchEntered := true,
        finalStates := 0, finalTables := [] }

/-- Total cell count computed by the GeneticAlgorithm constructor:
    columns() * get_column(0).data.size(). -/
def totalCells (o : Table) : ℕ := o.columns * (o.cols.headD default).data.length

/-- GeneticAlgorithm::fitness(f): two-stage score.  A k-anonymous table
    scores (k * cells) / s_score under the configured metric; any other
    table scores av_k / k. -/
def fitness (o : Table) (k : ℕ) (m : Metric) (f : Table) : Except String ℚ :=
  if k_anonymity f o k (f.columns - 1) then do
    let s ← s_score m f o
    pure (((k : ℚ) * (totalCells o : ℚ)) / s)
  else pure (av_k_anonymity f o (f.columns - 1) / k)

/-- Distribution state of the GeneticAlgorithm relevant to recombination:
    the m_rate member and the inclusive bounds of the member distribution
    `mutations` that GeneticAlgorithm::combine draws its rolls from. -/
structure GAParams where
  m_rate : ℕ
  mut_lo : ℕ
  mut_hi : ℕ

/-- Member-initialization state of GeneticAlgorithm: m_rate = 10 and
    mutations = uniform_int_distribution<>(0, 100 + m_rate), the members
    being initialized in declaration order. -/
def gaCtor : GAParams := { m_rate := 10, mut_lo := 0, mut_hi := 100 + 10 }

/-- Parameter setup in GeneticAlgorithm::anonymize: m_rate = mut_rate.
    The member distribution is not rebuilt. -/
def gaSetup (mut_rate : ℕ) (s : GAParams) : GAParams := { s with m_rate := mut_rate }

/-- Escalation step in GeneticAlgorithm::anonymize_worker, executed when
    (iter + 1) % (max / 10) == 0: m_rate is doubled, and the statement
    `std::uniform_int_distribution<> roll, mutations = ...` declares two
    fresh block-local distributions that shadow the members and are
    discarded at the end of the block, so the member distribution the
    rolls are drawn from is left untouched. -/
def gaEscalate (s : GAParams) : GAParams := { s with m_rate := 2 * s.m_rate }

/-- Per-cell action of GeneticAlgorithm::combine given the drawn roll: a
    roll above 100 re-mutates from the original cell (the argument below
    carries the drawn element of mutations(original cell, original column,
    true)), a roll below 50 copies the partner's cell, anything else keeps
    the first parent's cell. -/
def combineCell (roll : ℕ) (mutChoice partnerCell firstCell : String) : String :=
  if 100 < roll then mutChoice
  else if roll < 50 then partnerCell
  else firstCell

/-! Specification-side definitions, written from the words of the
    specification for refinement comparisons against the embedded code. -/

/-- Match lists of every working row, the M of the k-verifier claim. -/
def matchesOf (w o : Table) (c : ℕ) : List (List ℕ) :=
  (List.range w.rows).map (fun r => match_row o (w.rowView r) c)

/-- Statement of "sigma is an injective assignment with sigma(r) drawn
    from M[r] for every row", from the k-verifier claim. -/
def IsAssignment (ms : List (List ℕ)) (σ : List ℕ) : Prop :=
  σ.length = ms.length ∧ σ.Nodup ∧ ∀ i, i < σ.length → σ.getD i 0 ∈ ms.getD i []

/-- Candidate set K[r] of the k-verifier claim: every original row some
    valid global assignment gives to working row r. -/
def Kspec (ms : List (List ℕ)) (r : ℕ) : Set ℕ :=
  { v | ∃ σ, IsAssignment ms σ ∧ σ.getD r 0 = v }


/-- Spec-side: valid partial completion of the backtracking state. -/
inductive Completes : List (List ℕ) → List ℕ → List ℕ → Prop where
  | nil (tree : List ℕ) : Completes [] tree []
  | cons {m : List ℕ} {ms : List (List ℕ)} {tree : List ℕ} {o : ℕ} {σ : List ℕ} :
      o ∈ m → o ∉ tree → Completes ms (tree ++ [o]) σ → Completes (m :: ms) tree (o :: σ)

/-- Distinct-state count as the claim describes it: the product over quasi
    cells only of their mutation-set cardinalities, with the sentinel
    exactly when the number of quasi cells exceeds 64. -/
def distinct_states_spec (t : Table) : ℕ :=
  let quasi : List Column := t.cols.filter (fun col => col.sensitivity = .quasi)
  let quasiCells : ℕ := (quasi.map (fun col => col.data.length)).sum
  let p : ℕ := (quasi.map (fun col => (col.data.map (fun e => (mutations e col).length)).prod)).prod
  if 64 < quasiCells then SIZE_MAX else p

/-- Scaling of every column weight by a common factor, for the weight
    linearity claim. -/
def scaleWeights (lam : ℚ) (t : Table) : Table :=
  { t with cols := t.cols.map (fun col => { col with weight := lam * col.weight }) }

/-- Consistency of a match-cache state with the original table o: every
    stored entry equals the uncached match_row result for its key.  Every
    prefix length the program ever passes is an actual column index, hence
    the c ≠ SIZE_MAX guard (SIZE_MAX is resolved against the row length
    instead of naming a prefix). -/
def MatchCacheOK (o : Table) (t : Tree (List ℕ)) : Prop :=
  ∀ (row : List String) (c : ℕ), c ≠ SIZE_MAX →
    Tree.inB [] t row c = true → Tree.getT t row c = .ok (match_row o row c)

/-! Concrete tables used by the witnesses and the counterexamples.  All of
    them carry a single quasi string column without a domain graph. -/

/-- Single-column table builder for the examples below. -/
def tbl1 (weight : ℚ) (l : List String) : Table :=
  { cols := [{ weight := weight, unique := l.dedup, data := l }], rows := l.length }

/-- Original genders table of the suppressed-male example. -/
def tblMF : Table := tbl1 1 ["M", "M", "F", "F"]

/-- Genders table with the first male suppressed. -/
def tblMFSup : Table := tbl1 1 ["*", "M", "F", "F"]

/-- Two-row original table. -/
def tblAB : Table := tbl1 1 ["A", "B"]

/-- Two-row table fully suppressed. -/
def tblABSup : Table := tbl1 1 ["*", "*"]

/-- Three-row original table with column weight 3. -/
def tblABC : Table := tbl1 3 ["A", "B", "C"]

/-- Three-row table with the last two cells suppressed. -/
def tblASS : Table := tbl1 3 ["A", "*", "*"]

/-- Three-row table fully suppressed. -/
def tblSSS : Table := tbl1 3 ["*", "*", "*"]

/-- Original table whose first and third rows coincide. -/
def tblABA : Table := tbl1 1 ["A", "B", "A"]

/-- Working table whose three rows carry identical content. -/
def tblAAA : Table := tbl1 1 ["A", "A", "A"]

/-- Two-row table that is already 2-anonymous. -/
def tblAA : Table := tbl1 1 ["A", "A"]

/-- One-row original with weight -1. -/
def tblNegA : Table := tbl1 (-1) ["A"]

/-- One-row suppressed table with weight -1. -/
def tblNegS : Table := tbl1 (-1) ["*"]

/-- Default (all-default-fields) column: quasi, string typed, no graph. -/
def colPlain : Column := {}


/-- Cache tree holding the value 7 at the prefix [b]. -/
def tW : Tree ℚ := { root := CNode.mk blank 0 [CNode.mk "b" 7 []] }

/-- The tree tW after a successful insert of 5 at the prefix [a]. -/
def t2W : Tree ℚ := { root := CNode.mk blank 0 [CNode.mk "b" 7 [], CNode.mk "a" 5 []] }

/-- Two-column, one-row table whose second column is sensitive. -/
def tblQS : Table :=
  { cols := [{ unique := ["x"], data := ["x"] },
             { sensitivity := .sensitive, unique := ["y"], data := ["y"] }],
    rows := 1 }

/-!  Theorems.  -/

/-- Reduction of a bind on a successful Except value. -/
@[simp] theorem exc_ok_bind {α β : Type} (a : α) (f : α → Except String β) :
    (Except.ok a : Except String α) >>= f = f a := rfl

/-- Reduction of a bind on a failed Except value. -/
@[simp] theorem exc_err_bind {α β : Type} (e : String) (f : α → Except String β) :
    (Except.error e : Except String α) >>= f = Except.error e := rfl

/-- Normal form of pure for Except. -/
@[simp] theorem exc_pure {α : Type} (a : α) :
    (pure a : Except String α) = Except.ok a := rfl

/-- Unfolding law of k_tree on an empty match list. -/
theorem k_tree_nil (tree : List ℕ) (ks : List (Finset ℕ)) :
    k_tree [] tree ks = updateKs ks tree := rfl

/-- Unfolding law of k_tree on a non-empty match list. -/
theorem k_tree_cons (m : List ℕ) (ms : List (List ℕ)) (tree : List ℕ) (ks : List (Finset ℕ)) :
    k_tree (m :: ms) tree ks =
      m.foldl (fun acc option =>
        if option ∈ tree then acc else k_tree ms (tree ++ [option]) acc) ks := rfl

theorem updateKs_length : ∀ (ks : List (Finset ℕ)) (tree : List ℕ),
    (updateKs ks tree).length = ks.length := by
  intro ks
  induction ks with
  | nil => intro tree; cases tree <;> rfl
  | cons s ks ih =>
    intro tree
    cases tree with
    | nil => rfl
    | cons v tree => simp [updateKs, ih]

theorem updateKs_getD : ∀ (ks : List (Finset ℕ)) (tree : List ℕ) (i v : ℕ),
    tree.length ≤ ks.length →
    (v ∈ (updateKs ks tree).getD i ∅ ↔ v ∈ ks.getD i ∅ ∨ tree.get? i = some v) := by
  intro ks
  induction ks with
  | nil =>
    intro tree i v hlen
    cases tree with
    | nil => simp [updateKs]
    | cons t ts => simp at hlen
  | cons s ks ih =>
    intro tree i v hlen
    cases tree with
    | nil => simp [updateKs]
    | cons t ts =>
      cases i with
      | zero =>
        simp only [updateKs, List.getD_cons_zero, List.get?_cons_zero, Finset.mem_insert,
          Option.some.injEq]
        constructor
        · rintro (h | h)
          · exact Or.inr h.symm
          · exact Or.inl h
        · rintro (h | h)
          · exact Or.inr h
          · exact Or.inl h.symm
      | succ j =>
        simp only [updateKs, List.getD_cons_succ, List.get?_cons_succ]
        exact ih ts j v (by simpa using hlen)

theorem k_tree_length : ∀ (rest : List (List ℕ)) (tree : List ℕ) (ks : List (Finset ℕ)),
    (k_tree rest tree ks).length = ks.length := by
  intro rest
  induction rest with
  | nil => intro tree ks; rw [k_tree_nil]; exact updateKs_length ks tree
  | cons m ms ih =>
    intro tree ks
    rw [k_tree_cons]
    suffices h : ∀ (mm : List ℕ) (acc : List (Finset ℕ)),
        (mm.foldl (fun acc option =>
          if option ∈ tree then acc else k_tree ms (tree ++ [option]) acc) acc).length =
        acc.length from h m ks
    intro mm
    induction mm with
    | nil => intro acc; rfl
    | cons o os iho =>
      intro acc
      rw [List.foldl_cons, iho]
      by_cases ho : o ∈ tree
      · rw [if_pos ho]
      · rw [if_neg ho, ih]

theorem k_tree_mem : ∀ (rest : List (List ℕ)) (tree : List ℕ) (ks : List (Finset ℕ)),
    tree.length + rest.length ≤ ks.length → ∀ (i v : ℕ),
      (v ∈ (k_tree rest tree ks).getD i ∅ ↔
        v ∈ ks.getD i ∅ ∨ ∃ σ, Completes rest tree σ ∧ (tree ++ σ).get? i = some v) := by
  intro rest
  induction rest with
  | nil =>
    intro tree ks hlen i v
    rw [k_tree_nil, updateKs_getD ks tree i v (by simpa using hlen)]
    constructor
    · rintro (h | h)
      · exact Or.inl h
      · exact Or.inr ⟨[], Completes.nil tree, by simpa using h⟩
    · rintro (h | ⟨σ, hσ, hg⟩)
      · exact Or.inl h
      · cases hσ
        exact Or.inr (by simpa using hg)
  | cons m ms ih =>
    intro tree ks hlen i v
    rw [k_tree_cons]
    have hfold : ∀ (mm : List ℕ) (acc : List (Finset ℕ)), acc.length = ks.length →
        (v ∈ (mm.foldl (fun acc option =>
            if option ∈ tree then acc else k_tree ms (tree ++ [option]) acc) acc).getD i ∅ ↔
          v ∈ acc.getD i ∅ ∨ ∃ o, o ∈ mm ∧ o ∉ tree ∧
            ∃ σ, Completes ms (tree ++ [o]) σ ∧ (tree ++ [o] ++ σ).get? i = some v) := by
      intro mm
      induction mm with
      | nil => intro acc hacc; simp
      | cons o os iho =>
        intro acc hacc
        rw [List.foldl_cons]
        by_cases ho : o ∈ tree
        · rw [if_pos ho, iho acc hacc]
          constructor
          · rintro (h | ⟨o2, ho2, hno2, hσ⟩)
            · exact Or.inl h
            · exact Or.inr ⟨o2, List.mem_cons_of_mem _ ho2, hno2, hσ⟩
          · rintro (h | ⟨o2, ho2, hno2, hσ⟩)
            · exact Or.inl h
            · rcases List.mem_cons.mp ho2 with rfl | ho2b
              · exact absurd ho hno2
              · exact Or.inr ⟨o2, ho2b, hno2, hσ⟩
        · rw [if_neg ho]
          have hlen2 : (tree ++ [o]).length + ms.length ≤ acc.length := by
            simp only [List.length_append, List.length_singleton, hacc]
            simp only [List.length_cons] at hlen
            omega
          rw [iho _ (by rw [k_tree_length]; exact hacc), ih (tree ++ [o]) acc hlen2 i v]
          constructor
          · rintro ((h | ⟨σ, hσ, hg⟩) | ⟨o2, ho2, hno2, hσ⟩)
            · exact Or.inl h
            · exact Or.inr ⟨o, List.mem_cons_self o os, ho, σ, hσ, hg⟩
            · exact Or.inr ⟨o2, List.mem_cons_of_mem _ ho2, hno2, hσ⟩
          · rintro (h | ⟨o2, ho2, hno2, σ2, hσ2, hg2⟩)
            · exact Or.inl (Or.inl h)
            · rcases List.mem_cons.mp ho2 with rfl | ho2b
              · exact Or.inl (Or.inr ⟨σ2, hσ2, hg2⟩)
              · exact Or.inr ⟨o2, ho2b, hno2, σ2, hσ2, hg2⟩
    rw [hfold m ks rfl]
    constructor
    · rintro (h | ⟨o, ho, hno, σ, hσ, hg⟩)
      · exact Or.inl h
      · refine Or.inr ⟨o :: σ, Completes.cons ho hno hσ, ?_⟩
        rw [← List.append_cons] at hg
        exact hg
    · rintro (h | ⟨σ, hσ, hg⟩)
      · exact Or.inl h
      · cases hσ with
        | cons ho hno hσ2 =>
          rw [List.append_cons] at hg
          exact Or.inr ⟨_, ho, hno, _, hσ2, hg⟩

theorem completes_char : ∀ (ms : List (List ℕ)) (σ tree : List ℕ),
    Completes ms tree σ ↔
      σ.length = ms.length ∧ σ.Nodup ∧
        ∀ i, i < σ.length → σ.getD i 0 ∈ ms.getD i [] ∧ σ.getD i 0 ∉ tree := by
  intro ms
  induction ms with
  | nil =>
    intro σ tree
    constructor
    · intro h
      cases h
      simp
    · rintro ⟨hlen, -, -⟩
      rw [List.length_eq_zero.mp hlen]
      exact Completes.nil tree
  | cons m ms ih =>
    intro σ tree
    cases σ with
    | nil =>
      constructor
      · intro h; cases h
      · rintro ⟨hlen, -⟩; simp at hlen
    | cons o σ2 =>
      constructor
      · intro h
        cases h with
        | cons ho hno hc =>
          obtain ⟨hlen, hnd, hall⟩ := (ih σ2 (tree ++ [o])).mp hc
          refine ⟨by simp [hlen], ?_, ?_⟩
          · rw [List.nodup_cons]
            refine ⟨?_, hnd⟩
            intro hmem
            obtain ⟨j, hj, hje⟩ := List.mem_iff_getElem.mp hmem
            have h2 := (hall j hj).2
            rw [List.getD_eq_getElem?_getD, List.getElem?_eq_getElem hj,
              Option.getD_some, hje] at h2
            exact h2 (List.mem_append_right tree (List.mem_singleton.mpr rfl))
          · intro i hi
            cases i with
            | zero => exact ⟨ho, hno⟩
            | succ j =>
              have hj : j < σ2.length := by simpa using hi
              obtain ⟨h1, h2⟩ := hall j hj
              refine ⟨h1, ?_⟩
              intro hmem
              exact h2 (List.mem_append_left _ hmem)
      · rintro ⟨hlen, hnd, hall⟩
        obtain ⟨h0m, h0t⟩ := hall 0 (by simp)
        refine Completes.cons h0m h0t ((ih σ2 (tree ++ [o])).mpr ⟨by simpa using hlen,
          (List.nodup_cons.mp hnd).2, ?_⟩)
        intro j hj
        obtain ⟨h1, h2⟩ := hall (j + 1) (by simpa using Nat.succ_lt_succ hj)
        refine ⟨h1, ?_⟩
        rw [List.mem_append]
        rintro (ht | ho2)
        · exact h2 ht
        · have hje : σ2.getD j 0 = o := List.mem_singleton.mp ho2
          have hmem : o ∈ σ2 := by
            rw [← hje]
            rw [List.getD_eq_getElem?_getD, List.getElem?_eq_getElem hj, Option.getD_some]
            exact List.getElem_mem hj
          exact (List.nodup_cons.mp hnd).1 hmem

theorem getD_replicate_empty : ∀ (n i : ℕ), (List.replicate n (∅ : Finset ℕ)).getD i ∅ = ∅ := by
  intro n
  induction n with
  | zero => intro i; rfl
  | succ n ihn =>
    intro i
    cases i with
    | zero => rfl
    | succ j => exact ihn j

theorem k_tree_coe_Kspec (ms : List (List ℕ)) (r : ℕ) (hr : r < ms.length) :
    ((k_tree ms [] (List.replicate ms.length ∅)).getD r ∅ : Set ℕ) = Kspec ms r := by
  ext v
  rw [Finset.mem_coe,
    k_tree_mem ms [] (List.replicate ms.length ∅) (by simp) r v, getD_replicate_empty]
  simp only [Finset.not_mem_empty, false_or, List.nil_append]
  constructor
  · rintro ⟨σ, hσ, hg⟩
    obtain ⟨hlen, hnd, hall⟩ := (completes_char ms σ []).mp hσ
    refine ⟨σ, ⟨hlen, hnd, fun i hi => (hall i hi).1⟩, ?_⟩
    rw [List.getD_eq_getElem?_getD, ← List.get?_eq_getElem?, hg, Option.getD_some]
  · rintro ⟨σ, ⟨hlen, hnd, hall⟩, hg⟩
    refine ⟨σ, (completes_char ms σ []).mpr ⟨hlen, hnd,
      fun i hi => ⟨hall i hi, List.not_mem_nil _⟩⟩, ?_⟩
    have hrσ : r < σ.length := by omega
    rw [List.get?_eq_getElem?, List.getElem?_eq_getElem hrσ]
    rw [List.getD_eq_getElem?_getD, List.getElem?_eq_getElem hrσ, Option.getD_some] at hg
    rw [hg]

theorem k_anonymity_go_spec (o w : Table) (k c : ℕ) : ∀ (rs : List ℕ) (acc : List (List ℕ)),
    k_anonymity_go o w k c rs acc =
      if rs.any (fun r => (match_row o (w.rowView r) c).length < k) then false
      else
        (k_tree (acc ++ rs.map (fun r => match_row o (w.rowView r) c)) []
          (List.replicate (acc ++ rs.map (fun r => match_row o (w.rowView r) c)).length ∅)).all
          (fun solutions => k ≤ solutions.card) := by
  intro rs
  induction rs with
  | nil => intro acc; simp [k_anonymity_go]
  | cons r rs ihr =>
    intro acc
    simp only [k_anonymity_go]
    by_cases hs : (match_row o (w.rowView r) c).length < k
    · rw [if_pos hs]
      simp [hs]
    · rw [if_neg hs, ihr (acc ++ [match_row o (w.rowView r) c])]
      simp [hs, List.append_assoc]

/-- C1: the k-verifier characterization.  k_anonymity(W, O, k, c) returns
    true if and only if every row's match set M[r] = match_row(O, W[r], c)
    has at least k entries AND, with K[r] the set of originals that some
    injective global assignment sigma (sigma(i) in M[i] for every i) gives
    to row r, every row satisfies k <= |K[r]|.  (The claim's concrete
    companion example is wrong: see the counterexample theorem below.) -/
theorem k_anonymity_characterizes_assignments (w o : Table) (k c : ℕ) :
    k_anonymity w o k c = true ↔
      ((∀ r, r < w.rows → k ≤ (match_row o (w.rowView r) c).length) ∧
       (∀ r, r < w.rows → k ≤ Set.ncard (Kspec (matchesOf w o c) r))) := by
  rw [k_anonymity, k_anonymity_go_spec]
  simp only [List.nil_append]
  by_cases hshort :
      (List.range w.rows).any (fun r => (match_row o (w.rowView r) c).length < k) = true
  · rw [if_pos hshort]
    obtain ⟨r, hrmem, hrshort⟩ := List.any_eq_true.mp hshort
    simp only [decide_eq_true_eq] at hrshort
    have hr : r < w.rows := List.mem_range.mp hrmem
    constructor
    · intro h; exact absurd h (by simp)
    · rintro ⟨h1, -⟩
      exact absurd (h1 r hr) (by omega)
  · rw [if_neg hshort]
    have hlong : ∀ r, r < w.rows → k ≤ (match_row o (w.rowView r) c).length := by
      intro r hr
      by_contra hcon
      exact hshort (List.any_eq_true.mpr ⟨r, List.mem_range.mpr hr, by
        simp only [decide_eq_true_eq]
        omega⟩)
    have hmap : ((List.range w.rows).map fun r => match_row o (w.rowView r) c) =
        matchesOf w o c := rfl
    rw [hmap]
    have hmslen : (matchesOf w o c).length = w.rows := by simp [matchesOf]
    have hTlen : (k_tree (matchesOf w o c) []
        (List.replicate (matchesOf w o c).length ∅)).length = (matchesOf w o c).length := by
      rw [k_tree_length, List.length_replicate]
    constructor
    · intro hall
      refine ⟨hlong, ?_⟩
      intro r hr
      have hrT : r < (k_tree (matchesOf w o c) []
          (List.replicate (matchesOf w o c).length ∅)).length := by
        rw [hTlen, hmslen]; exact hr
      have hgd : (k_tree (matchesOf w o c) []
          (List.replicate (matchesOf w o c).length ∅)).getD r ∅ =
          (k_tree (matchesOf w o c) [] (List.replicate (matchesOf w o c).length ∅))[r] := by
        rw [List.getD_eq_getElem?_getD, List.getElem?_eq_getElem hrT, Option.getD_some]
      have hmem := List.all_eq_true.mp hall _ (List.getElem_mem hrT)
      simp only [decide_eq_true_eq] at hmem
      rw [← k_tree_coe_Kspec (matchesOf w o c) r (by rw [hmslen]; exact hr),
        Set.ncard_coe_Finset, hgd]
      exact hmem
    · rintro ⟨-, h2⟩
      apply List.all_eq_true.mpr
      intro s hs
      obtain ⟨r, hrT, hre⟩ := List.mem_iff_getElem.mp hs
      have hr : r < w.rows := by rw [hTlen, hmslen] at hrT; exact hrT
      have hk := h2 r hr
      rw [← k_tree_coe_Kspec (matchesOf w o c) r (by rw [hmslen]; exact hr),
        Set.ncard_coe_Finset] at hk
      have hgd : (k_tree (matchesOf w o c) []
          (List.replicate (matchesOf w o c).length ∅)).getD r ∅ = s := by
        rw [List.getD_eq_getElem?_getD, List.getElem?_eq_getElem hrT, Option.getD_some]
        exact hre
      simp only [decide_eq_true_eq]
      rw [← hgd]
      exact hk

/-- C1, counterexample: on the 4-row table (*),(M),(F),(F) checked against
    the originals (M),(M),(F),(F) with k = 2 over the single column, the
    verifier returns true, not false as the claim states, and it does so
    even though every per-row match set has at least 2 entries (every row
    keeps two admissible originals across the valid global assignments, so
    by the claim's own characterization the verifier must answer true). -/
theorem k_anonymity_true_on_suppressed_male_trap :
    k_anonymity tblMFSup tblMF 2 0 = true ∧
    ((List.range 4).all
      (fun r => 2 ≤ (match_row tblMF (tblMFSup.rowView r) 0).length)) = true := by
  decide

/-- C2: the pruning test of MinGen::anonymize_worker under the certainty
    metric.  At the working table (*),(*) against originals (A),(B) with
    best = 1 and k = 2, the certainty score is 2 and k-anonymity holds over
    the prefix, so the claimed test "score <= best AND k_anonymity" is
    false, yet the code advances: the expression parses so that the
    certainty arm tests score != 0 instead of score <= best. -/
theorem mg_prune_tests_nonzero_certainty_not_best :
    mg_condition Metric.c tblABSup tblAB (some 1) 2 0 = .ok true ∧
    mg_condition_spec Metric.c tblABSup tblAB (some 1) 2 0 = .ok false ∧
    certainty_score tblABSup tblAB = .ok 2 ∧
    k_anonymity tblABSup tblAB 2 0 = true := by
  have hc : certainty_score tblABSup tblAB = .ok 2 := by
    simp [tblAB, tblABSup, tbl1, certainty_score, certRow, certCell, sumE, Table.cell,
      Table.getCol, Table.columns, blank, List.getD, List.range_succ, Domain.isEmptyD]
    norm_num
  have hk : k_anonymity tblABSup tblAB 2 0 = true := by decide
  refine ⟨?_, ?_, hc, hk⟩
  · norm_num [mg_condition, hc, hk]
  · norm_num [mg_condition_spec, s_score, hc, hk, leBest]

/-- C3, counterexample: with the score cache enabled and starting empty,
    minimal distortion of the table (A),(A),(A) against the originals
    (A),(B),(A) comes out as 2 (the score 1 cached for the second row's
    content is replayed for the third row), while the uncached score is 1,
    so caching does not return identical results for every working table. -/
theorem score_cache_changes_minimal_distortion :
    (minimal_distortion_cached tblAAA tblABA (Tree.empty 0)).map Prod.fst = .ok 2 ∧
    minimal_distortion tblAAA tblABA = 1 := by
  have hr0 : md_row tblAAA tblABA 0 = 0 := by
    simp [tblAAA, tblABA, tbl1, md_row, Table.cell, Table.getCol, Table.columns, blank,
      List.getD, List.range_succ]
  have hr1 : md_row tblAAA tblABA 1 = 1 := by
    simp [tblAAA, tblABA, tbl1, md_row, Table.cell, Table.getCol, Table.columns, blank,
      List.getD, List.range_succ]
  have hr2 : md_row tblAAA tblABA 2 = 0 := by
    simp [tblAAA, tblABA, tbl1, md_row, Table.cell, Table.getCol, Table.columns, blank,
      List.getD, List.range_succ]
  have hv0 : tblAAA.rowView 0 = ["A"] := rfl
  have hv1 : tblAAA.rowView 1 = ["A"] := rfl
  have hv2 : tblAAA.rowView 2 = ["A"] := rfl
  have hrows : tblAAA.rows = 3 := rfl
  constructor
  · simp [minimal_distortion_cached, hrows, md_cached_go, hr0, hr1, hr2, hv0, hv1, hv2,
      Tree.empty, Tree.inq, Tree.inB, Tree.getT, Tree.addT, CNode.inP, CNode.getP, CNode.addP,
      CNode.key, keyNe, pathK, resolveMax, SIZE_MAX, blank, List.getD, List.range_succ,
      Except.map]
    norm_num
  · simp [minimal_distortion, hrows, hr0, hr1, hr2, List.range_succ]

/-- C4: the two branches of GeneticAlgorithm::fitness.  A k-anonymous table
    scores (k * total_cells) / s_score under the configured metric and any
    other table scores av_k / k, exactly as the claim's formula part says
    (the dominance part of the claim is refuted separately). -/
theorem fitness_two_stage_formula (o : Table) (k : ℕ) (m : Metric) (f : Table) :
    (k_anonymity f o k (f.columns - 1) = true →
      fitness o k m f = (s_score m f o).map (fun s => ((k : ℚ) * (totalCells o : ℚ)) / s)) ∧
    (k_anonymity f o k (f.columns - 1) = false →
      fitness o k m f = .ok (av_k_anonymity f o (f.columns - 1) / k)) := by
  constructor <;> intro h
  · cases m with
    | md => simp [fitness, h, s_score, Except.map]
    | c =>
      rcases hc : certainty_score f o with e | s <;>
        simp [fitness, h, s_score, hc, Except.map]
  · simp [fitness, h]

/-- C4, witness: the k-anonymous branch of the fitness formula at the fully
    suppressed 3-row table. -/
theorem fitness_two_stage_formula_witness :
    k_anonymity tblSSS tblABC 2 (tblSSS.columns - 1) = true ∧
    fitness tblABC 2 Metric.md tblSSS =
      (s_score Metric.md tblSSS tblABC).map
        (fun s => (((2 : ℕ) : ℚ) * (totalCells tblABC : ℚ)) / s) :=
  ⟨by decide, (fitness_two_stage_formula tblABC 2 Metric.md tblSSS).1 (by decide)⟩

/-- C4, counterexample: over the originals (A),(B),(C) with column weight 3
    and k = 2, the non-k-anonymous table (A),(*),(*) has fitness 5/6 while
    the k-anonymous table (*),(*),(*) has fitness 2/3, so a non-k-anonymous
    fitness is not strictly below the fitness of every k-anonymous table. -/
theorem fitness_dominance_fails :
    fitness tblABC 2 Metric.md tblASS = .ok (5 / 6) ∧
    fitness tblABC 2 Metric.md tblSSS = .ok (2 / 3) ∧
    k_anonymity tblASS tblABC 2 (tblASS.columns - 1) = false ∧
    k_anonymity tblSSS tblABC 2 (tblSSS.columns - 1) = true ∧ (2 : ℚ) / 3 < 5 / 6 := by
  have h1 : k_anonymity tblASS tblABC 2 (tblASS.columns - 1) = false := by decide
  have h2 : k_anonymity tblSSS tblABC 2 (tblSSS.columns - 1) = true := by decide
  have hav : MG.k_tree
      ((List.range tblASS.rows).map (fun r => MG.match_row tblABC (tblASS.rowView r) 0)) []
      (List.replicate
        ((List.range tblASS.rows).map (fun r => MG.match_row tblABC (tblASS.rowView r) 0)).length
        ∅) = [{0}, {1, 2}, {1, 2}] := by decide
  have hmd : minimal_distortion tblSSS tblABC = 9 := by
    simp [tblABC, tblSSS, tbl1, minimal_distortion, md_row, List.getD, Table.cell, Table.getCol,
      Table.columns, blank, List.range_succ]
    norm_num
  have e2 : av_k_anonymity tblASS tblABC (tblASS.columns - 1) = 5 / 3 := by
    have h0 : tblASS.columns - 1 = 0 := rfl
    rw [h0, av_k_anonymity, hav]
    norm_num
  refine ⟨?_, ?_, h1, h2, by norm_num⟩
  · simp [fitness, h1, e2]
    norm_num
  · simp [fitness, h2, s_score, hmd]
    norm_num [totalCells, tblABC, tbl1, Table.columns]

/-- C5: after GeneticAlgorithm::anonymize stores the default mutation rate
    10 and the first escalation doubles m_rate to 20, the member
    distribution that combine draws its rolls from still carries the
    constructor-time bounds [0, 110], not the claimed [0, 100 + 20]: the
    escalation block only builds two block-local distributions that shadow
    the members and are discarded. -/
theorem ga_escalation_keeps_ctor_roll_bounds :
    (gaEscalate (gaSetup 10 gaCtor)).m_rate = 20 ∧
    (gaEscalate (gaSetup 10 gaCtor)).mut_lo = 0 ∧
    (gaEscalate (gaSetup 10 gaCtor)).mut_hi = 110 ∧
    100 + (gaEscalate (gaSetup 10 gaCtor)).m_rate = 120 := by
  decide

/-- C6: in a column without a domain graph and not of integer type, every
    non-empty cell value other than the suppression symbol is a member of
    its own mutation list, and the suppression symbol appears in that list
    exactly once. -/
theorem mutations_value_member_and_single_star (v : String) (col : Column)
    (hg : col.graph.isEmptyD = true) (ht : ¬col.t = CType.integer)
    (hv : ¬v = blank) (hs : ¬v = "*") :
    v ∈ mutations v col ∧ (mutations v col).count "*" = 1 := by
  simp [mutations, hg, ht, hv, List.count_cons, hs]

/-- C6, witness: the value A in a plain default column. -/
theorem mutations_value_member_and_single_star_witness :
    colPlain.graph.isEmptyD = true ∧ ¬colPlain.t = CType.integer ∧
    ¬("A" : String) = blank ∧ ¬("A" : String) = "*" ∧
    ("A" ∈ mutations "A" colPlain ∧ (mutations "A" colPlain).count "*" = 1) :=
  ⟨by decide, by decide, by decide, by decide,
    mutations_value_member_and_single_star "A" colPlain (by decide) (by decide)
      (by decide) (by decide)⟩

/-- C6, counterexample: in a plain column the empty cell value is not a
    member of its own mutation list, and the mutation list of the cell
    value * contains the suppression symbol twice, refuting both halves of
    the claim as stated. -/
theorem mutations_empty_and_star_counterexample :
    mutations blank colPlain = ["*"] ∧ (mutations "*" colPlain).count "*" = 2 := by
  decide

/-- C7, counterexample: with column weight -1, the one-row table (*) scores
    minimal distortion -1 and certainty -1 against the original (A), so the
    metrics are not nonnegative for every pair of tables. -/
theorem negative_weight_negative_scores :
    minimal_distortion tblNegS tblNegA = -1 ∧ certainty_score tblNegS tblNegA = .ok (-1) := by
  constructor
  · simp [tblNegS, tblNegA, tbl1, minimal_distortion, md_row, Table.cell, Table.getCol,
      Table.columns, blank, List.getD, List.range_succ]
  · simp [tblNegS, tblNegA, tbl1, certainty_score, certRow, certCell, sumE, Table.cell,
      Table.getCol, Table.columns, blank, List.getD, List.range_succ, Domain.isEmptyD]

theorem mulmod_step (a b : ℕ) : a % 2 ^ 64 * b % 2 ^ 64 = a * b % 2 ^ 64 := by
  conv_rhs => rw [Nat.mul_mod]
  rw [Nat.mul_mod (a % 2 ^ 64) b, Nat.mod_mod]

theorem foldl_mulmod {α : Type} (f : α → ℕ) (l : List α) (a : ℕ) :
    l.foldl (fun x e => x * f e % 2 ^ 64) (a % 2 ^ 64) = a * (l.map f).prod % 2 ^ 64 := by
  induction l generalizing a with
  | nil => simp
  | cons e rest ih =>
    simp only [List.foldl_cons, List.map_cons, List.prod_cons]
    rw [mulmod_step, ih (a * f e), mul_assoc]

/-- C8: Table::get_distinct multiplies the mutation-set size of every cell
    of every column, quasi or not, in size_t arithmetic, and returns
    SIZE_MAX exactly when the total cell count columns * rows of the first
    column exceeds 64 (not when the quasi cell count does). -/
theorem get_distinct_all_cells_product (t : Table) :
    t.get_distinct =
      if 64 < t.cols.length * (t.cols.headD default).data.length then SIZE_MAX
      else (t.cols.map
        (fun col => (col.data.map (fun e => (mutations e col).length)).prod)).prod % 2 ^ 64 := by
  have key : ∀ (cols : List Column) (a : ℕ),
      cols.foldl (fun acc col =>
        col.data.foldl (fun x e => x * (mutations e col).length % 2 ^ 64) acc) (a % 2 ^ 64) =
      a * (cols.map (fun col => (col.data.map (fun e => (mutations e col).length)).prod)).prod
        % 2 ^ 64 := by
    intro cols
    induction cols with
    | nil => intro a; simp
    | cons c cs ih =>
      intro a
      simp only [List.foldl_cons, List.map_cons, List.prod_cons]
      rw [foldl_mulmod, ih (a * (c.data.map (fun e => (mutations e c).length)).prod), mul_assoc]
  have htot := key t.cols 1
  rw [Nat.one_mod_eq_one.mpr (by norm_num), one_mul] at htot
  rw [Table.get_distinct]
  simp only [htot]

/-- C8, counterexample: on a one-row table with one quasi and one sensitive
    column, Table::get_distinct returns 4, the product over all cells,
    while the claimed product over quasi cells only is 2. -/
theorem get_distinct_counts_non_quasi_cells :
    Table.get_distinct tblQS = 4 ∧ distinct_states_spec tblQS = 2 := by
  decide

/-- C9, counterexample: inserting the value 0 (the value-initialized
    default of the cache value type) for prefix [a] succeeds and stores 0,
    and a second insert for the same prefix does not fail with the
    collision error but silently replaces the stored 0 with 5, so a
    successful insert can overwrite a previously stored value. -/
theorem tree_insert_overwrites_stored_default :
    ((Tree.addT 0 (Tree.empty (0 : ℚ)) ["a"] 0 0).bind (fun t1 =>
      Tree.getT t1 ["a"] 0)) = .ok 0 ∧
    ((Tree.addT 0 (Tree.empty (0 : ℚ)) ["a"] 0 0).bind (fun t1 =>
      (Tree.addT 0 t1 ["a"] 5 0).bind (fun t2 => Tree.getT t2 ["a"] 0))) = .ok 5 := by
  constructor <;> rfl

/-- C10: whenever the original table already passes the k-anonymity check
    over the full column range, MinGen::anonymize returns at the notice:
    the worker recursion is never entered, the state counter stays 0 and
    the tied-best multiset stays empty. -/
theorem anonymize_early_return_when_already_anonymous (o : Table) (kVal : ℕ) (mVal : Metric)
    (iters : ℕ) (sh : List String → List String) (fuel : ℕ)
    (h : k_anonymity o o kVal (o.columns - 1) = true) :
    (MinGen.anonymize o kVal mVal iters sh fuel).alreadyAnonymous = true ∧
    (MinGen.anonymize o kVal mVal iters sh fuel).searchEntered = false ∧
    (MinGen.anonymize o kVal mVal iters sh fuel).finalStates = 0 ∧
    (MinGen.anonymize o kVal mVal iters sh fuel).finalTables = [] := by
  simp [MinGen.anonymize, h]

/-- C10, witness: the two-row table (A),(A) is already 2-anonymous and the
    driver returns before the search. -/
theorem anonymize_early_return_witness :
    k_anonymity tblAA tblAA 2 (tblAA.columns - 1) = true ∧
    (MinGen.anonymize tblAA 2 Metric.md SIZE_MAX id 5).alreadyAnonymous = true ∧
    (MinGen.anonymize tblAA 2 Metric.md SIZE_MAX id 5).searchEntered = false ∧
    (MinGen.anonymize tblAA 2 Metric.md SIZE_MAX id 5).finalStates = 0 ∧
    (MinGen.anonymize tblAA 2 Metric.md SIZE_MAX id 5).finalTables = [] :=
  ⟨by decide, anonymize_early_return_when_already_anonymous tblAA 2 Metric.md SIZE_MAX id 5
    (by decide)⟩


theorem getCol_weight_nonneg (t : Table) (h : ∀ col ∈ t.cols, 0 ≤ col.weight) (c : ℕ) :
    0 ≤ (t.getCol c).weight := by
  rw [Table.getCol]
  by_cases hc : c < t.cols.length
  · rw [List.getD_eq_getElem _ _ hc]
    exact h _ (List.getElem_mem hc)
  · rw [List.getD_eq_default _ _ (le_of_not_lt hc)]
    norm_num [default, Column.weight]

theorem md_nonneg (w o : Table) (h : ∀ col ∈ w.cols, 0 ≤ col.weight) :
    0 ≤ minimal_distortion w o := by
  apply List.sum_nonneg
  intro x hx
  simp only [List.mem_map] at hx
  obtain ⟨r, _, rfl⟩ := hx
  apply List.sum_nonneg
  intro y hy
  simp only [List.mem_map] at hy
  obtain ⟨c, _, rfl⟩ := hy
  split
  · exact getCol_weight_nonneg w h c
  · exact le_refl 0

theorem scale_rows (lam : ℚ) (t : Table) : (scaleWeights lam t).rows = t.rows := rfl

theorem scale_columns (lam : ℚ) (t : Table) : (scaleWeights lam t).columns = t.columns := by
  simp [scaleWeights, Table.columns]

theorem getCol_scale (lam : ℚ) (t : Table) (c : ℕ) (hc : c < t.cols.length) :
    (scaleWeights lam t).getCol c = { t.getCol c with weight := lam * (t.getCol c).weight } := by
  simp only [scaleWeights, Table.getCol, List.getD_eq_getElem?_getD, List.getElem?_map,
    List.getElem?_eq_getElem hc, Option.map_some', Option.getD_some]

theorem scale_cell (lam : ℚ) (t : Table) (r c : ℕ) :
    (scaleWeights lam t).cell r c = t.cell r c := by
  by_cases hc : c < t.cols.length
  · rw [Table.cell, Table.cell, getCol_scale lam t c hc]
  · have h1 : t.cols.length ≤ c := le_of_not_lt hc
    have h2 : (scaleWeights lam t).cols.length ≤ c := by simpa [scaleWeights]
    rw [Table.cell, Table.cell, Table.getCol, Table.getCol,
      List.getD_eq_default _ _ h2, List.getD_eq_default _ _ h1]

theorem md_row_scale (lam : ℚ) (w o : Table) (r : ℕ) :
    md_row (scaleWeights lam w) (scaleWeights lam o) r = lam * md_row w o r := by
  rw [md_row, md_row, scale_columns, ← List.sum_map_mul_left]
  congr 1
  apply List.map_congr_left
  intro c hc
  rw [List.mem_range] at hc
  rw [scale_cell, scale_cell, getCol_scale lam w c hc]
  split
  · rfl
  · rw [mul_zero]

theorem md_linear (lam : ℚ) (w o : Table) :
    minimal_distortion (scaleWeights lam w) (scaleWeights lam o) =
      lam * minimal_distortion w o := by
  rw [minimal_distortion, minimal_distortion, scale_rows, ← List.sum_map_mul_left]
  congr 1
  apply List.map_congr_left
  intro r _
  exact md_row_scale lam w o r

theorem sumE_nonneg (l : List (Except String ℚ)) (h : ∀ e ∈ l, ∀ v, e = .ok v → 0 ≤ v) :
    ∀ s, sumE l = .ok s → 0 ≤ s := by
  induction l with
  | nil =>
    intro s hs
    rw [sumE] at hs
    simp only [Except.ok.injEq] at hs
    rw [← hs]
  | cons e rest ih =>
    intro s hs
    rw [sumE] at hs
    cases he : e with
    | error msg => rw [he] at hs; simp at hs
    | ok v =>
      rw [he] at hs
      simp only [exc_ok_bind] at hs
      cases hr : sumE rest with
      | error msg => rw [hr] at hs; simp at hs
      | ok s2 =>
        rw [hr] at hs
        simp only [exc_ok_bind, exc_pure, Except.ok.injEq] at hs
        have hv := h e (List.mem_cons_self e rest) v he
        have hs2 := ih (fun e2 he2 v2 hv2 => h e2 (List.mem_cons_of_mem _ he2) v2 hv2) s2 hr
        rw [← hs]
        exact add_nonneg hv hs2

theorem certCell_nonneg (w o : Table) (h : ∀ col ∈ o.cols, 0 ≤ col.weight) (r c : ℕ) (v : ℚ)
    (hv : certCell w o r c = .ok v) : 0 ≤ v := by
  have hw := getCol_weight_nonneg o h c
  rw [certCell] at hv
  split_ifs at hv <;> simp only [exc_pure, exc_ok_bind, exc_err_bind, Except.ok.injEq] at hv
  · rw [← hv]; exact mul_nonneg (le_refl 0) hw
  · rw [← hv]; exact mul_nonneg zero_le_one hw
  · rw [← hv]
    exact mul_nonneg (div_nonneg (Nat.cast_nonneg _) (Nat.cast_nonneg _)) hw
  · rw [← hv]
    exact mul_nonneg (div_nonneg (Nat.cast_nonneg _) (Nat.cast_nonneg _)) hw
  · simp at hv

theorem certainty_nonneg (w o : Table) (h : ∀ col ∈ o.cols, 0 ≤ col.weight) (s : ℚ)
    (hs : certainty_score w o = .ok s) : 0 ≤ s := by
  apply sumE_nonneg _ _ s hs
  intro e he v hv
  simp only [List.mem_map] at he
  obtain ⟨r, _, rfl⟩ := he
  apply sumE_nonneg _ _ v hv
  intro e2 he2 v2 hv2
  simp only [List.mem_map] at he2
  obtain ⟨c, _, rfl⟩ := he2
  exact certCell_nonneg w o h r c v2 hv2

theorem sumE_scale (lam : ℚ) (l : List (Except String ℚ)) :
    sumE (l.map (fun e => e.map (fun v => lam * v))) = (sumE l).map (fun v => lam * v) := by
  induction l with
  | nil => simp [sumE, Except.map, mul_zero]
  | cons e rest ih =>
    rw [List.map_cons, sumE, sumE, ih]
    cases e with
    | error m => simp [Except.map]
    | ok v =>
      cases hr : sumE rest with
      | error m => simp [hr, Except.map]
      | ok s => simp [hr, Except.map, mul_add]

theorem certCell_out (w o : Table) (r c : ℕ) (hcw : w.cols.length ≤ c) :
    certCell w o r c = if o.cell r c = blank then .ok 0 else .error "Invalid modification!" := by
  have hcol : w.getCol c = default := by
    rw [Table.getCol, List.getD_eq_default _ _ hcw]
  have hmod : w.cell r c = blank := by
    rw [Table.cell, hcol]
    rfl
  have hg : (default : Column).graph.isEmptyD = true := rfl
  have ht : (default : Column).t = CType.string := rfl
  rw [certCell, hcol, hmod]
  by_cases hb : o.cell r c = blank
  · simp [hb, zero_mul, blank]
  · rw [if_neg hb]
    rw [if_neg (by simp [blank] : ¬blank = "*")]
    rw [if_neg (by simp [hg] : ¬(¬(default : Column).graph.isEmptyD = true ∧
      (default : Column).graph.find blank ≠ []))]
    rw [if_neg (by simp [ht] : ¬((default : Column).t = CType.integer ∧ blank.front = '['))]
    simp only [exc_err_bind, if_neg hb]

theorem certCell_scale (lam : ℚ) (w o : Table) (hlen : w.cols.length ≤ o.cols.length) (r c : ℕ) :
    certCell (scaleWeights lam w) (scaleWeights lam o) r c =
      (certCell w o r c).map (fun v => lam * v) := by
  by_cases hc : c < w.cols.length
  · have hco : c < o.cols.length := lt_of_lt_of_le hc hlen
    rw [certCell, certCell, scale_cell, scale_cell, getCol_scale lam w c hc,
      getCol_scale lam o c hco]
    split_ifs <;> simp [Except.map] <;> ring
  · have hcw : w.cols.length ≤ c := le_of_not_lt hc
    have hcw2 : (scaleWeights lam w).cols.length ≤ c := by simpa [scaleWeights]
    rw [certCell_out _ _ _ _ hcw2, certCell_out _ _ _ _ hcw, scale_cell]
    by_cases hb : o.cell r c = blank
    · simp [hb, Except.map]
    · simp [hb, Except.map]

theorem certainty_scale (lam : ℚ) (w o : Table) (hlen : w.cols.length ≤ o.cols.length) :
    certainty_score (scaleWeights lam w) (scaleWeights lam o) =
      (certainty_score w o).map (fun v => lam * v) := by
  have hrow : ∀ r, certRow (scaleWeights lam w) (scaleWeights lam o) r =
      (certRow w o r).map (fun v => lam * v) := by
    intro r
    rw [certRow, certRow, scale_columns, Table.columns]
    rw [show (List.range w.cols.length).map (certCell (scaleWeights lam w) (scaleWeights lam o) r)
        = ((List.range w.cols.length).map (certCell w o r)).map
            (fun e => e.map (fun v => lam * v)) by
      rw [List.map_map]
      apply List.map_congr_left
      intro c _
      exact certCell_scale lam w o hlen r c]
    exact sumE_scale lam _
  rw [certainty_score, certainty_score, scale_rows]
  rw [show (List.range w.rows).map (certRow (scaleWeights lam w) (scaleWeights lam o))
      = ((List.range w.rows).map (certRow w o)).map (fun e => e.map (fun v => lam * v)) by
    rw [List.map_map]
    apply List.map_congr_left
    intro r _
    exact hrow r]
  exact sumE_scale lam _

/-- C7: both metrics are nonnegative whenever every column weight is
    nonnegative (the unrestricted claim fails, see the counterexample),
    and scaling every column weight by a common factor scales both
    returned scores by exactly that factor. -/
theorem metric_nonneg_and_weight_linear :
    (∀ w o : Table, (∀ col ∈ w.cols, 0 ≤ col.weight) → 0 ≤ minimal_distortion w o) ∧
    (∀ w o : Table, ∀ s : ℚ, (∀ col ∈ o.cols, 0 ≤ col.weight) →
      certainty_score w o = .ok s → 0 ≤ s) ∧
    (∀ (lam : ℚ) (w o : Table),
      minimal_distortion (scaleWeights lam w) (scaleWeights lam o) =
        lam * minimal_distortion w o) ∧
    (∀ (lam : ℚ) (w o : Table), w.cols.length ≤ o.cols.length →
      certainty_score (scaleWeights lam w) (scaleWeights lam o) =
        (certainty_score w o).map (fun v => lam * v)) :=
  ⟨md_nonneg, fun w o s h hs => certainty_nonneg w o h s hs, md_linear, certainty_scale⟩

/-- C7, witness: the nonnegativity parts at the table (A),(B) against
    itself and the certainty linearity at factor 2. -/
theorem metric_nonneg_and_weight_linear_witness :
    (∀ col ∈ tblAB.cols, 0 ≤ col.weight) ∧
    0 ≤ minimal_distortion tblAB tblAB ∧
    certainty_score tblAB tblAB = .ok 0 ∧
    0 ≤ (0 : ℚ) ∧
    tblAB.cols.length ≤ tblAB.cols.length ∧
    certainty_score (scaleWeights 2 tblAB) (scaleWeights 2 tblAB) =
      (certainty_score tblAB tblAB).map (fun v => 2 * v) := by
  have hw : ∀ col ∈ tblAB.cols, 0 ≤ col.weight := by
    intro col hcol
    simp only [tblAB, tbl1, List.mem_singleton] at hcol
    subst hcol
    norm_num
  have hc : certainty_score tblAB tblAB = .ok 0 := by
    simp [tblAB, tbl1, certainty_score, certRow, certCell, sumE, Table.cell, Table.getCol,
      Table.columns, blank, List.getD, List.range_succ, Domain.isEmptyD]
  exact ⟨hw, metric_nonneg_and_weight_linear.1 tblAB tblAB hw,
    hc, metric_nonneg_and_weight_linear.2.1 tblAB tblAB 0 hw hc,
    le_refl _, metric_nonneg_and_weight_linear.2.2.2 2 tblAB tblAB (le_refl _)⟩


theorem dw_app_nil {α : Type} (q : α → Bool) (l l2 : List α) (h : l.dropWhile q = []) :
    (l ++ l2).dropWhile q = l2.dropWhile q := by
  induction l with
  | nil => rfl
  | cons a l ih =>
    rw [List.dropWhile_cons] at h
    by_cases hq : q a = true
    · rw [List.cons_append, List.dropWhile_cons, if_pos hq]
      exact ih (by rwa [if_pos hq] at h)
    · rw [if_neg hq] at h
      exact absurd h (by simp)

theorem dw_app_cons {α : Type} (q : α → Bool) (l l2 : List α) (d : α) (ds : List α)
    (h : l.dropWhile q = d :: ds) : (l ++ l2).dropWhile q = d :: (ds ++ l2) := by
  induction l with
  | nil => simp at h
  | cons a l ih =>
    rw [List.dropWhile_cons] at h
    by_cases hq : q a = true
    · rw [List.cons_append, List.dropWhile_cons, if_pos hq]
      exact ih (by rwa [if_pos hq] at h)
    · rw [if_neg hq] at h
      cases h
      rw [List.cons_append, List.dropWhile_cons, if_neg hq]

theorem dw_head_false {α : Type} (q : α → Bool) (l : List α) (c : α) (cs : List α)
    (h : l.dropWhile q = c :: cs) : q c = false := by
  induction l with
  | nil => simp at h
  | cons a l ih =>
    rw [List.dropWhile_cons] at h
    by_cases hq : q a = true
    · exact ih (by rwa [if_pos hq] at h)
    · rw [if_neg hq] at h
      cases h
      exact Bool.not_eq_true _ ▸ (by simpa using hq)

theorem dw_tw_cons {α : Type} (q : α → Bool) (l cs2 : List α) (c2 : α) (hc2 : q c2 = false) :
    (l.takeWhile q ++ c2 :: cs2).dropWhile q = c2 :: cs2 := by
  induction l with
  | nil => simp [List.dropWhile_cons, hc2]
  | cons a l ih =>
    rw [List.takeWhile_cons]
    by_cases hq : q a = true
    · rw [if_pos hq, List.cons_append, List.dropWhile_cons, if_pos hq]
      exact ih
    · rw [if_neg hq]
      simp [List.dropWhile_cons, hc2]

theorem dw_mid_head {α : Type} (q : α → Bool) (a b : α) (ha : q a = true) (hb : q b = true)
    (pre post : List α) :
    ((pre ++ a :: post).dropWhile q).head? = ((pre ++ b :: post).dropWhile q).head? := by
  induction pre with
  | nil => simp [List.dropWhile_cons, ha, hb]
  | cons e pre ih =>
    by_cases hq : q e = true
    · simpa [List.dropWhile_cons, hq] using ih
    · simp [List.dropWhile_cons, hq]


theorem map_ok_inv {α β : Type} (e : Except String α) (f : α → β) (b : β)
    (h : e.map f = .ok b) : ∃ a, e = .ok a ∧ b = f a := by
  cases e with
  | error m => simp [Except.map] at h
  | ok a => exact ⟨a, rfl, by simpa [Except.map] using h.symm⟩

theorem inP_cons_none {V : Type} [DecidableEq V] (dflt : V) (k : String) (val : V) (ch : List (CNode V)) (cell : String)
    (rest : List String) (h : ch.dropWhile (MG.keyNe cell) = []) :
    CNode.inP dflt (.mk k val ch) (cell :: rest) = false := by
  simp [CNode.inP, h]

theorem inP_cons_some {V : Type} [DecidableEq V] (dflt : V) (k : String) (val : V) (ch : List (CNode V)) (cell : String)
    (rest : List String) (c : CNode V) (cs : List (CNode V))
    (h : ch.dropWhile (MG.keyNe cell) = c :: cs) :
    CNode.inP dflt (.mk k val ch) (cell :: rest) = CNode.inP dflt c rest := by
  simp [CNode.inP, h]

theorem getP_cons_none {V : Type} (k : String) (val : V) (ch : List (CNode V)) (cell : String)
    (rest : List String) (h : ch.dropWhile (MG.keyNe cell) = []) :
    CNode.getP (.mk k val ch) (cell :: rest) = .error "Value does not exist" := by
  simp [CNode.getP, h]

theorem getP_cons_some {V : Type} (k : String) (val : V) (ch : List (CNode V)) (cell : String)
    (rest : List String) (c : CNode V) (cs : List (CNode V))
    (h : ch.dropWhile (MG.keyNe cell) = c :: cs) :
    CNode.getP (.mk k val ch) (cell :: rest) = CNode.getP c rest := by
  simp [CNode.getP, h]

theorem inP_fresh {V : Type} [DecidableEq V] (dflt : V) (cell : String) (path : List String) :
    CNode.inP dflt (.mk cell dflt []) path = false := by
  cases path with
  | nil => simp [CNode.inP]
  | cons a rest => simp [CNode.inP]

theorem addP_key {V : Type} [DecidableEq V] (dflt : V) (n : CNode V) (path : List String) (v : V) (n2 : CNode V)
    (h : CNode.addP dflt n path v = .ok n2) : n2.key = n.key := by
  cases n with
  | mk k val ch =>
    cases path with
    | nil =>
      rw [CNode.addP] at h
      by_cases hval : val ≠ dflt
      · rw [if_pos hval] at h
        simp at h
      · rw [if_neg hval] at h
        simp only [Except.ok.injEq] at h
        subst h
        rfl
    | cons cell rest =>
      rw [CNode.addP] at h
      cases hdw : ch.dropWhile (MG.keyNe cell) with
      | nil =>
        rw [hdw] at h
        obtain ⟨c2, _, rfl⟩ := map_ok_inv _ _ _ h
        rfl
      | cons c cs =>
        rw [hdw] at h
        obtain ⟨c2, _, rfl⟩ := map_ok_inv _ _ _ h
        rfl

theorem addP_same {V : Type} [DecidableEq V] (dflt : V) (v : V) :
    ∀ (path : List String) (n n2 : CNode V), CNode.addP dflt n path v = .ok n2 →
      CNode.inP dflt n2 path = decide (¬v = dflt) ∧ CNode.getP n2 path = .ok v := by
  intro path
  induction path with
  | nil =>
    intro n n2 h
    cases n with
    | mk k val ch =>
      rw [CNode.addP] at h
      by_cases hval : val ≠ dflt
      · rw [if_pos hval] at h
        simp at h
      · rw [if_neg hval] at h
        simp only [Except.ok.injEq] at h
        subst h
        exact ⟨rfl, rfl⟩
  | cons cell rest ih =>
    intro n n2 h
    cases n with
    | mk k val ch =>
      rw [CNode.addP] at h
      cases hdw : ch.dropWhile (MG.keyNe cell) with
      | nil =>
        rw [hdw] at h
        obtain ⟨c2, hc2, rfl⟩ := map_ok_inv _ _ _ h
        have hkey : c2.key = cell := by
          rw [addP_key dflt _ _ _ _ hc2]
          rfl
        have hd2 : (ch ++ [c2]).dropWhile (MG.keyNe cell) = [c2] := by
          rw [dw_app_nil _ _ _ hdw]
          simp [List.dropWhile_cons, MG.keyNe, hkey]
        obtain ⟨h1, h2⟩ := ih _ _ hc2
        exact ⟨by rw [inP_cons_some dflt k val _ cell rest c2 [] hd2, h1],
               by rw [getP_cons_some k val _ cell rest c2 [] hd2, h2]⟩
      | cons c cs =>
        rw [hdw] at h
        obtain ⟨c2, hc2, rfl⟩ := map_ok_inv _ _ _ h
        have hkeyc : c.key = cell := by
          have hf := dw_head_false _ _ _ _ hdw
          simpa [MG.keyNe] using hf
        have hkey : c2.key = cell := by rw [addP_key dflt _ _ _ _ hc2, hkeyc]
        have hd2 : (ch.takeWhile (MG.keyNe cell) ++ c2 :: cs).dropWhile
            (MG.keyNe cell) = c2 :: cs :=
          dw_tw_cons _ _ _ _ (by simp [MG.keyNe, hkey])
        obtain ⟨h1, h2⟩ := ih _ _ hc2
        exact ⟨by rw [inP_cons_some dflt k val _ cell rest c2 cs hd2, h1],
               by rw [getP_cons_some k val _ cell rest c2 cs hd2, h2]⟩


theorem map_ok_exists {α β : Type} (e : Except String α) (f : α → β) :
    (∃ b, e.map f = .ok b) ↔ ∃ a, e = .ok a := by
  cases e <;> simp [Except.map]

theorem addP_ok_iff {V : Type} [DecidableEq V] (dflt : V) (v : V) :
    ∀ (path : List String) (n : CNode V),
      (∃ n2, CNode.addP dflt n path v = .ok n2) ↔ CNode.inP dflt n path = false := by
  intro path
  induction path with
  | nil =>
    intro n
    cases n with
    | mk k val ch =>
      simp only [CNode.addP, CNode.inP]
      by_cases hval : val ≠ dflt
      · simp [hval]
      · simp [hval, not_not.mp hval]
  | cons cell rest ih =>
    intro n
    cases n with
    | mk k val ch =>
      simp only [CNode.addP]
      cases hdw : ch.dropWhile (MG.keyNe cell) with
      | nil =>
        simp only [hdw]
        rw [inP_cons_none dflt k val ch cell rest hdw]
        rw [map_ok_exists, ih]
        simp [inP_fresh]
      | cons c cs =>
        simp only [hdw]
        rw [inP_cons_some dflt k val ch cell rest c cs hdw]
        rw [map_ok_exists, ih]

theorem addP_other {V : Type} [DecidableEq V] (dflt : V) (v : V) :
    ∀ (path : List String) (n n2 : CNode V), CNode.addP dflt n path v = .ok n2 →
      ∀ path', path' ≠ path →
        CNode.inP dflt n2 path' = CNode.inP dflt n path' ∧
        (CNode.inP dflt n path' = true → CNode.getP n2 path' = CNode.getP n path') := by
  intro path
  induction path with
  | nil =>
    intro n n2 h path' hne
    cases n with
    | mk k val ch =>
      rw [CNode.addP] at h
      by_cases hval : val ≠ dflt
      · rw [if_pos hval] at h
        simp at h
      · rw [if_neg hval] at h
        simp only [Except.ok.injEq] at h
        subst h
        cases path' with
        | nil => exact absurd rfl hne
        | cons cell' rest' =>
          constructor
          · cases hdw : ch.dropWhile (MG.keyNe cell') with
            | nil =>
              rw [inP_cons_none dflt k v ch cell' rest' hdw,
                inP_cons_none dflt k val ch cell' rest' hdw]
            | cons c cs =>
              rw [inP_cons_some dflt k v ch cell' rest' c cs hdw,
                inP_cons_some dflt k val ch cell' rest' c cs hdw]
          · intro _
            cases hdw : ch.dropWhile (MG.keyNe cell') with
            | nil =>
              rw [getP_cons_none k v ch cell' rest' hdw,
                getP_cons_none k val ch cell' rest' hdw]
            | cons c cs =>
              rw [getP_cons_some k v ch cell' rest' c cs hdw,
                getP_cons_some k val ch cell' rest' c cs hdw]
  | cons cell rest ih =>
    intro n n2 h path' hne
    cases n with
    | mk k val ch =>
      rw [CNode.addP] at h
      cases hdw : ch.dropWhile (MG.keyNe cell) with
      | nil =>
        rw [hdw] at h
        obtain ⟨c2, hc2, rfl⟩ := map_ok_inv _ _ _ h
        have hkey : c2.key = cell := by
          rw [addP_key dflt _ _ _ _ hc2]
          rfl
        cases path' with
        | nil => exact ⟨rfl, fun _ => rfl⟩
        | cons cell' rest' =>
          by_cases hcell : cell' = cell
          · subst hcell
            have hd2 : (ch ++ [c2]).dropWhile (MG.keyNe cell') = [c2] := by
              rw [dw_app_nil _ _ _ hdw]
              simp [List.dropWhile_cons, MG.keyNe, hkey]
            have hrne : rest' ≠ rest := fun hr => hne (by rw [hr])
            have hfresh := (ih _ _ hc2 rest' hrne).1
            constructor
            · rw [inP_cons_some dflt k val _ cell' rest' c2 [] hd2, hfresh, inP_fresh,
                inP_cons_none dflt k val ch cell' rest' hdw]
            · intro hold
              rw [inP_cons_none dflt k val ch cell' rest' hdw] at hold
              exact absurd hold (by simp)
          · have hq2 : MG.keyNe cell' c2 = true := by
              simp only [MG.keyNe, hkey, decide_eq_true_eq]
              exact fun hcc => hcell hcc.symm
            cases hdw' : ch.dropWhile (MG.keyNe cell') with
            | nil =>
              have hnew : (ch ++ [c2]).dropWhile (MG.keyNe cell') = [] := by
                rw [dw_app_nil _ _ _ hdw']
                simp [List.dropWhile_cons, hq2]
              constructor
              · rw [inP_cons_none dflt k val _ cell' rest' hnew,
                  inP_cons_none dflt k val ch cell' rest' hdw']
              · intro hold
                rw [inP_cons_none dflt k val ch cell' rest' hdw'] at hold
                exact absurd hold (by simp)
            | cons d ds =>
              have hnew : (ch ++ [c2]).dropWhile (MG.keyNe cell') = d :: (ds ++ [c2]) :=
                dw_app_cons _ _ _ _ _ hdw'
              constructor
              · rw [inP_cons_some dflt k val _ cell' rest' d _ hnew,
                  inP_cons_some dflt k val ch cell' rest' d ds hdw']
              · intro _
                rw [getP_cons_some k val _ cell' rest' d _ hnew,
                  getP_cons_some k val ch cell' rest' d ds hdw']
      | cons c cs =>
        rw [hdw] at h
        obtain ⟨c2, hc2, rfl⟩ := map_ok_inv _ _ _ h
        have hkeyc : c.key = cell := by
          have hf := dw_head_false _ _ _ _ hdw
          simpa [MG.keyNe] using hf
        have hkey : c2.key = cell := by rw [addP_key dflt _ _ _ _ hc2, hkeyc]
        have hsplit : ch.takeWhile (MG.keyNe cell) ++ ch.dropWhile (MG.keyNe cell) = ch :=
          List.takeWhile_append_dropWhile (MG.keyNe cell) ch
        rw [hdw] at hsplit
        cases path' with
        | nil => exact ⟨rfl, fun _ => rfl⟩
        | cons cell' rest' =>
          by_cases hcell : cell' = cell
          · subst hcell
            have hd2 : (ch.takeWhile (MG.keyNe cell') ++ c2 :: cs).dropWhile (MG.keyNe cell') =
                c2 :: cs :=
              dw_tw_cons _ _ _ _ (by simp [MG.keyNe, hkey])
            have hrne : rest' ≠ rest := fun hr => hne (by rw [hr])
            obtain ⟨hin2, hget2⟩ := ih _ _ hc2 rest' hrne
            constructor
            · rw [inP_cons_some dflt k val _ cell' rest' c2 cs hd2,
                inP_cons_some dflt k val ch cell' rest' c cs hdw, hin2]
            · intro hold
              rw [inP_cons_some dflt k val ch cell' rest' c cs hdw] at hold
              rw [getP_cons_some k val _ cell' rest' c2 cs hd2,
                getP_cons_some k val ch cell' rest' c cs hdw]
              exact hget2 hold
          · have hqc : MG.keyNe cell' c = true := by
              simp only [MG.keyNe, hkeyc, decide_eq_true_eq]
              exact fun hcc => hcell hcc.symm
            have hqc2 : MG.keyNe cell' c2 = true := by
              simp only [MG.keyNe, hkey, decide_eq_true_eq]
              exact fun hcc => hcell hcc.symm
            have hhead := dw_mid_head (MG.keyNe cell') c2 c hqc2 hqc
              (ch.takeWhile (MG.keyNe cell)) cs
            rw [hsplit] at hhead
            cases hO : ch.dropWhile (MG.keyNe cell') with
            | nil =>
              rw [hO] at hhead
              simp only [List.head?_nil] at hhead
              have hN : (ch.takeWhile (MG.keyNe cell) ++ c2 :: cs).dropWhile (MG.keyNe cell') =
                  [] := by
                cases hN2 : (ch.takeWhile (MG.keyNe cell) ++ c2 :: cs).dropWhile
                    (MG.keyNe cell') with
                | nil => rfl
                | cons e es => rw [hN2] at hhead; simp at hhead
              constructor
              · rw [inP_cons_none dflt k val _ cell' rest' hN,
                  inP_cons_none dflt k val ch cell' rest' hO]
              · intro hold
                rw [inP_cons_none dflt k val ch cell' rest' hO] at hold
                exact absurd hold (by simp)
            | cons d ds =>
              rw [hO] at hhead
              cases hN : (ch.takeWhile (MG.keyNe cell) ++ c2 :: cs).dropWhile
                  (MG.keyNe cell') with
              | nil =>
                rw [hN] at hhead
                simp at hhead
              | cons e es =>
                rw [hN] at hhead
                simp only [List.head?_cons, Option.some.injEq] at hhead
                subst hhead
                constructor
                · rw [inP_cons_some dflt k val _ cell' rest' e es hN,
                    inP_cons_some dflt k val ch cell' rest' e ds hO]
                · intro _
                  rw [getP_cons_some k val _ cell' rest' e es hN,
                    getP_cons_some k val ch cell' rest' e ds hO]

/-- C9: amended collision law of the cache tree.  An insert fails with the
    collision error exactly when a NON-DEFAULT value is already stored for
    the (resolved) prefix, and a successful insert preserves every stored
    non-default value; a stored default value, however, is
    indistinguishable from an absent one and may be silently replaced (see
    the counterexample). -/
theorem tree_add_ok_iff_not_stored {V : Type} [DecidableEq V] (dflt : V) (t : MG.Tree V)
    (row : List String) (v : V) (max : ℕ) :
    ((∃ t2, Tree.addT dflt t row v max = .ok t2) ↔ Tree.inB dflt t row max = false) ∧
    (∀ t2, Tree.addT dflt t row v max = .ok t2 →
      ∀ (row2 : List String) (max2 : ℕ), Tree.inB dflt t row2 max2 = true →
        Tree.inB dflt t2 row2 max2 = true ∧ Tree.getT t2 row2 max2 = Tree.getT t row2 max2) := by
  constructor
  · rw [Tree.addT, map_ok_exists, addP_ok_iff]
    rfl
  · intro t2 h2 row2 max2 hin
    rw [Tree.addT] at h2
    obtain ⟨n2, hn2, rfl⟩ := map_ok_inv _ _ _ h2
    by_cases hp : pathK row2 (resolveMax row2 max2) = pathK row (resolveMax row max)
    · exfalso
      have hfalse : CNode.inP dflt t.root (pathK row (resolveMax row max)) = false :=
        (addP_ok_iff dflt v _ _).mp ⟨n2, hn2⟩
    
      have : Tree.inB dflt t row2 max2 = false := by
        show CNode.inP dflt t.root (pathK row2 (resolveMax row2 max2)) = false
        rw [hp]
        exact hfalse
      rw [this] at hin
      exact absurd hin (by simp)
    · obtain ⟨ha, hb⟩ := addP_other dflt v _ t.root n2 hn2 _ hp
      constructor
      · show CNode.inP dflt n2 (pathK row2 (resolveMax row2 max2)) = true
        rw [ha]
        exact hin
      · exact hb hin

/-- C9, witness: inserting 5 at prefix [a] into a tree that stores 7 at
    prefix [b] succeeds and leaves the entry at [b] untouched. -/
theorem tree_add_ok_iff_not_stored_witness :
    Tree.addT 0 tW ["a"] (5 : ℚ) 0 = .ok t2W ∧
    Tree.inB 0 tW ["a"] 0 = false ∧
    Tree.inB 0 tW ["b"] 0 = true ∧
    Tree.inB 0 t2W ["b"] 0 = true ∧
    Tree.getT t2W ["b"] 0 = Tree.getT tW ["b"] 0 := by
  have h := (tree_add_ok_iff_not_stored (0 : ℚ) tW ["a"] 5 0).2 t2W (by rfl) ["b"] 0 (by rfl)
  exact ⟨by rfl, by rfl, by rfl, h.1, h.2⟩

-- C3 machinery
theorem resolveMax_ne (row : List String) (c : ℕ) (hc : c ≠ SIZE_MAX) :
    resolveMax row c = c := by
  simp [resolveMax, hc]

theorem pathK_getD (row : List String) (m x : ℕ) (hx : x < m + 1) :
    (pathK row m).getD x blank = row.getD x blank := by
  simp [pathK, List.getD_eq_getElem?_getD, List.getElem?_map]
  rw [List.getElem?_eq_getElem (by simpa using hx)]
  simp

theorem pathK_len (row : List String) (m : ℕ) : (pathK row m).length = m + 1 := by
  simp [pathK]

theorem all_congr {α : Type} (l : List α) (p q : α → Bool) (h : ∀ x ∈ l, p x = q x) :
    l.all p = l.all q := by
  induction l with
  | nil => rfl
  | cons a l ih =>
    simp only [List.all_cons, h a (List.mem_cons_self a l),
      ih (fun x hx => h x (List.mem_cons_of_mem _ hx))]

theorem match_row_congr (o : Table) (row row2 : List String) (c : ℕ)
    (h : pathK row c = pathK row2 c) : match_row o row c = match_row o row2 c := by
  have hpt : ∀ x, x < c + 1 → row.getD x blank = row2.getD x blank := by
    intro x hx
    rw [← pathK_getD row c x hx, ← pathK_getD row2 c x hx, h]
  rw [match_row, match_row]
  apply List.filter_congr
  intro i _
  apply all_congr
  intro x hx
  rw [List.mem_range] at hx
  rw [hpt x hx]

theorem inB_empty {V : Type} [DecidableEq V] (dflt : V) (row : List String) (max : ℕ) :
    Tree.inB dflt (Tree.empty dflt) row max = false :=
  inP_fresh dflt blank _

theorem cacheOK_empty (o : Table) : MatchCacheOK o (Tree.empty []) := by
  intro row c hc hin
  rw [inB_empty] at hin
  exact absurd hin (by simp)

theorem cacheOK_after_add (o : Table) (t : MG.Tree (List ℕ)) (row : List String) (c : ℕ)
    (hc : c ≠ SIZE_MAX) (hok : MatchCacheOK o t) (n2 : CNode (List ℕ))
    (hadd : CNode.addP [] t.root (pathK row (resolveMax row c)) (match_row o row c) = .ok n2)
    (hits2 misses2 : ℕ) :
    MatchCacheOK o { root := n2, hits := hits2, misses := misses2 } := by
  intro row2 c2 hc2 hin
  by_cases hp : pathK row2 (resolveMax row2 c2) = pathK row (resolveMax row c)
  · have hcc : c2 = c := by
      have hl := congrArg List.length hp
      rw [pathK_len, pathK_len, resolveMax_ne row2 c2 hc2, resolveMax_ne row c hc] at hl
      omega
    subst hcc
    have hmr : match_row o row2 c2 = match_row o row c2 := by
      apply match_row_congr
      rw [resolveMax_ne row2 c2 hc2, resolveMax_ne row c2 hc] at hp
      exact hp
    show CNode.getP n2 (pathK row2 (resolveMax row2 c2)) = .ok (match_row o row2 c2)
    rw [hp, (addP_same [] (match_row o row c2) _ _ _ hadd).2, hmr]
  · obtain ⟨ha, hb⟩ := addP_other [] (match_row o row c) _ t.root n2 hadd _ hp
    have hin2 : Tree.inB [] t row2 c2 = true := by
      show CNode.inP [] t.root (pathK row2 (resolveMax row2 c2)) = true
      rw [← ha]
      exact hin
    have hget := hb hin2
    show CNode.getP n2 (pathK row2 (resolveMax row2 c2)) = .ok (match_row o row2 c2)
    rw [hget]
    exact hok row2 c2 hc2 hin2

theorem match_row_cached_correct (o : Table) (row : List String) (c : ℕ) (hc : c ≠ SIZE_MAX)
    (t : MG.Tree (List ℕ)) (hok : MatchCacheOK o t) :
    ∃ t2, match_row_cached o row c t = .ok (match_row o row c, t2) ∧ MatchCacheOK o t2 := by
  rw [match_row_cached]
  cases hb : CNode.inP [] t.root (pathK row (resolveMax row c)) with
  | true =>
    have hinB : Tree.inB [] t row c = true := hb
    have hget : Tree.getT t row c = .ok (match_row o row c) := hok row c hc hinB
    refine ⟨{ t with hits := t.hits + 1 }, ?_, fun r2 c2 h2 hin => hok r2 c2 h2 hin⟩
    simp only [Tree.inq, hb]
    simp only [if_true]
    rw [show Tree.getT { t with hits := t.hits + 1 } row c = Tree.getT t row c from rfl, hget]
    rfl
  | false =>
    obtain ⟨n2, hn2⟩ := (addP_ok_iff [] (match_row o row c) (pathK row (resolveMax row c))
      t.root).mpr hb
    refine ⟨{ root := n2, hits := t.hits, misses := t.misses + 1 }, ?_, ?_⟩
    · simp only [Tree.inq, hb]
      simp only [Bool.false_eq_true, if_false]
      have : Tree.addT [] { t with misses := t.misses + 1 } row (match_row o row c) c =
          .ok { root := n2, hits := t.hits, misses := t.misses + 1 } := by
        rw [Tree.addT]
        show (CNode.addP [] t.root (pathK row (resolveMax row c)) (match_row o row c)).map _ =
          _
        rw [hn2]
        rfl
      rw [this]
      rfl
    · exact cacheOK_after_add o t row c hc hok n2 hn2 t.hits (t.misses + 1)

theorem k_go_cached (o w : Table) (k c : ℕ) (hc : c ≠ SIZE_MAX) :
    ∀ (rs : List ℕ) (acc : List (List ℕ)) (t : MG.Tree (List ℕ)), MatchCacheOK o t →
      ∃ t2, k_anonymity_cached_go o w k c rs acc t =
          .ok (k_anonymity_go o w k c rs acc, t2) ∧ MatchCacheOK o t2 := by
  intro rs
  induction rs with
  | nil => exact fun acc t hok => ⟨t, rfl, hok⟩
  | cons r rs ih =>
    intro acc t hok
    obtain ⟨t2, hmr, hok2⟩ := match_row_cached_correct o (w.rowView r) c hc t hok
    rw [k_anonymity_cached_go, k_anonymity_go, hmr]
    simp only [exc_ok_bind]
    by_cases hlen : (match_row o (w.rowView r) c).length < k
    · rw [if_pos hlen, if_pos hlen]
      exact ⟨t2, rfl, hok2⟩
    · rw [if_neg hlen, if_neg hlen]
      exact ih (acc ++ [match_row o (w.rowView r) c]) t2 hok2

/-- C3: amended transparency of the match cache.  From any cache state
    whose entries are all consistent with the original table o (the empty
    cache and every state reachable from it within one search), the cached
    k-anonymity verifier returns exactly the uncached answer, and leaves
    the cache consistent again.  The analogous statement for the score
    cache is false (see the counterexample). -/
theorem k_anonymity_cache_transparent (w o : Table) (k c : ℕ) (hc : c ≠ SIZE_MAX)
    (t : MG.Tree (List ℕ)) (hok : MatchCacheOK o t) :
    ∃ t2, k_anonymity_cached w o k c t = .ok (k_anonymity w o k c, t2) ∧ MatchCacheOK o t2 :=
  k_go_cached o w k c hc (List.range w.rows) [] t hok

/-- C3, witness: one cached run from the empty cache on the table (A),(B)
    against itself. -/
theorem k_anonymity_cache_transparent_witness :
    (0 : ℕ) ≠ SIZE_MAX ∧ MatchCacheOK tblAB (Tree.empty []) ∧
    ∃ t2, k_anonymity_cached tblAB tblAB 2 0 (Tree.empty []) =
        .ok (k_anonymity tblAB tblAB 2 0, t2) ∧ MatchCacheOK tblAB t2 :=
  ⟨by decide, cacheOK_empty tblAB,
    k_anonymity_cache_transparent tblAB tblAB 2 0 (by decide) (Tree.empty [])
      (cacheOK_empty tblAB)⟩

end MG
